import Mathlib

/-!
Verification of the Turing machine simulator in `src/tm.py`
(classes `TuringMachineResult`, `TuringMachineConfiguration`,
`DeterministicTuringMachine`, `NondeterministicTuringMachine`).

The Python code is shallowly embedded: numpy `uint8` tapes become
`List Nat` whose cells are reduced modulo 256 at every store, the
potentially non-terminating `while True` loops become fuel-indexed
runners returning `Option`, and the `TuringMachineError` raised on bad
input becomes an explicit outcome constructor.  The nondeterministic
engine's in-place tape mutation and copy-on-fork behaviour is modelled
twice: once purely (each successor built from the parent value) and once
against an explicit store of arrays mirroring the mutation order of the
source, with a refinement theorem connecting the two.
-/

/-- Result record, from `TuringMachineResult`: step count, verdict, and
(for the deterministic engine) the trimmed tape. -/
structure TuringMachineResult where
  num_steps : Nat
  accepted : Bool
  tape : Option (List String)
deriving DecidableEq, Repr

/-- Models the `for i, letter in enumerate(reversed(tape)): if letter != "_": break`
loop of `TuringMachineResult.__init__`, applied here to the already
reversed tape: the final value of `i` is the index of the first
non-blank entry, or `length - 1` when every entry is blank (the loop
then runs to completion and `i` keeps its last value). -/
def trimIdx : List String → Nat
  | [] => 0
  | [_] => 0
  | x :: y :: xs => if x = "_" then trimIdx (y :: xs) + 1 else 0

/-- Models the tape trimming performed by `TuringMachineResult.__init__`:
`self.tape = tape[:-i] if i > 0 else tape`, then the (unreachable for
non-empty input) `if self.tape == []` guard.  On the empty list the
Python loop never binds `i` and the constructor would raise `NameError`;
the engines never construct a result from an empty tape (the initial
tape is non-empty and steps never shrink it), and that case is mapped to
`[]` here. -/
def TuringMachineResult.trim (tape : List String) : List String :=
  if tape = [] then []
  else
    let i := trimIdx tape.reverse
    let t := if 0 < i then tape.take (tape.length - i) else tape
    if t = [] then ["_"] else t

/-- Models `TuringMachineResult.__init__`: the tape, when present, is
stored trimmed. -/
def TuringMachineResult.init (num_steps : Nat) (accepted : Bool)
    (tape : Option (List String)) : TuringMachineResult :=
  ⟨num_steps, accepted, tape.map TuringMachineResult.trim⟩

/-- Formalisation of the specification's words for claim C5, **not** of the
code: "trailing blank symbols are trimmed, but at least one symbol (a
lone blank) is always retained". -/
def specTrimmedTape (tape : List String) : List String :=
  let t := (tape.reverse.dropWhile (fun s => s = "_")).reverse
  if t = [] then ["_"] else t

/-- Runtime state of one simulated thread, from `TuringMachineConfiguration`.
The numpy `uint8` tape is a list of naturals; every value stored into it
is reduced modulo 256. -/
structure TuringMachineConfiguration where
  state : Nat
  tape : List Nat
  position : Nat
deriving DecidableEq, Repr

/-- Machine description for the deterministic engine.  Modelled from the
spec: `description.py` (class `TuringMachineDescription`) is not under
`src/`; spec section 3 specifies an alphabet whose index 0 is the blank
symbol `_`, designated accepting and rejecting state indices, and a
transition table mapping a state index and symbol index to a single
`(to_state, output_symbol, move_right)` triple, a missing entry meaning
"no defined move". -/
structure TuringMachineDescription where
  alphabet : List String
  transitions : Nat → Nat → Option (Nat × Nat × Bool)
  accepting : Nat
  rejecting : Nat

/-- Machine description for the nondeterministic engine: as in
`TuringMachineDescription`, but a transition entry is an ordered list of
triples (modelled from the spec, section 3, since `description.py` is
not under `src/`). -/
structure NondeterministicTuringMachineDescription where
  alphabet : List String
  transitions : Nat → Nat → Option (List (Nat × Nat × Bool))
  accepting : Nat
  rejecting : Nat

/-- Models `np.array([self.description.alphabet.index(x) for x in input], dtype=np.uint8)`
together with the surrounding `try`/`except ValueError`: `none` when some
input symbol is absent from the alphabet (Python's `list.index` raises
`ValueError`), otherwise the list of alphabet indices, each reduced
modulo 2^8 by the `uint8` store. -/
def encode_input (alphabet : List String) (input : List String) : Option (List Nat) :=
  if input.all (fun x => decide (x ∈ alphabet)) then
    some (input.map (fun x => alphabet.indexOf x % 256))
  else
    none

/-- Models `[self.description.alphabet[x] for x in configuration.tape]`.
An index outside the alphabet would raise `IndexError` in Python; it is
mapped to `""` here and never arises for well-formed machines. -/
def decode_tape (alphabet : List String) (tape : List Nat) : List String :=
  tape.map (fun x => alphabet.getD x "")

/-- Names bound at module level in `src/tm.py`: the imports
(`from description import TuringMachineDescription` binds only the class
name, not the module name `description`) and the four classes defined in
the file. -/
def tmModuleGlobals : List String :=
  ["typing", "sys", "itertools", "os", "TuringMachineDescription",
   "assert_property", "TuringMachineError", "ABC", "abstractmethod", "np",
   "TuringMachineResult", "TuringMachineConfiguration",
   "DeterministicTuringMachine", "NondeterministicTuringMachine"]

/-- Models the body of `DeterministicTuringMachine.print_configuration`
up to its first name lookup: the body reads `description.states`, and
`description` is resolved as a module-level global.  `none` models the
`NameError` raised when the name is unbound. -/
def DeterministicTuringMachine.print_configuration : Option Unit :=
  if tmModuleGlobals.contains "description" then some () else none

/-- Outcome of one `process_input` call: the `TuringMachineError` raised
on invalid input, an escaped `NameError`, or a normal result. -/
inductive TMOutcome where
  | invalidInput : TMOutcome
  | nameError : TMOutcome
  | result : TuringMachineResult → TMOutcome
deriving DecidableEq, Repr

/-- Shared write/move/state-change sequence applied when a transition
triple `(to_state, tape_output, move_right)` fires, from the body of
`perform_step` in both engines: write the output symbol (a `uint8`
store, hence modulo 2^8) at the head, then move the head (moving right
past the end first resizes the tape by one zero-initialised cell;
moving left at offset 0 leaves the head in place), then change state. -/
def applyTriple (c : TuringMachineConfiguration) (t : Nat × Nat × Bool) :
    TuringMachineConfiguration :=
  let tape := c.tape.set c.position (t.2.1 % 256)
  if t.2.2 then
    if c.position + 1 = tape.length then
      ⟨t.1, tape ++ [0], c.position + 1⟩
    else
      ⟨t.1, tape, c.position + 1⟩
  else if 0 < c.position then
    ⟨t.1, tape, c.position - 1⟩
  else
    ⟨t.1, tape, c.position⟩

/-- Models `DeterministicTuringMachine.perform_step`: apply the unique
transition for the current state and scanned symbol if one exists;
otherwise advance the head one cell to the right (without touching the
tape buffer) and enter the rejecting state. -/
def DeterministicTuringMachine.perform_step (d : TuringMachineDescription)
    (c : TuringMachineConfiguration) : TuringMachineConfiguration :=
  match d.transitions c.state (c.tape.getD c.position 0) with
  | some t => applyTriple c t
  | none => ⟨d.rejecting, c.tape, c.position + 1⟩

/-- Iterated deterministic stepping: the configuration after `n` calls to
`perform_step`. -/
def DeterministicTuringMachine.run (d : TuringMachineDescription) :
    TuringMachineConfiguration → Nat → TuringMachineConfiguration
  | c, 0 => c
  | c, n + 1 => DeterministicTuringMachine.run d (DeterministicTuringMachine.perform_step d c) n

/-- The deterministic run has halted: the configuration is in the
accepting or the rejecting state. -/
def haltedD (d : TuringMachineDescription) (c : TuringMachineConfiguration) : Prop :=
  c.state = d.accepting ∨ c.state = d.rejecting

instance (d : TuringMachineDescription) (c : TuringMachineConfiguration) :
    Decidable (haltedD d c) := by
  unfold haltedD
  infer_instance

/-- Models the `while True` loop of `DeterministicTuringMachine.process_input`,
indexed by fuel (`none` = fuel exhausted, mirroring a run that has not
yet halted).  Each iteration performs a step, optionally prints the
configuration (whose body raises `NameError`, see `print_configuration`),
then returns a result if the accepting or rejecting state was reached,
else increments `num_steps` and continues. -/
def DeterministicTuringMachine.run_loop (d : TuringMachineDescription) (verbose : Bool) :
    TuringMachineConfiguration → Nat → Nat → Option TMOutcome
  | _, _, 0 => none
  | c, num_steps, fuel + 1 =>
    let c' := DeterministicTuringMachine.perform_step d c
    match (if verbose then DeterministicTuringMachine.print_configuration else some ()) with
    | none => some TMOutcome.nameError
    | some _ =>
      if c'.state = d.accepting then
        some (TMOutcome.result (TuringMachineResult.init num_steps true
          (some (decode_tape d.alphabet c'.tape))))
      else if c'.state = d.rejecting then
        some (TMOutcome.result (TuringMachineResult.init num_steps false
          (some (decode_tape d.alphabet c'.tape))))
      else
        DeterministicTuringMachine.run_loop d verbose c' (num_steps + 1) fuel

/-- Models `DeterministicTuringMachine.process_input`: an empty input is
replaced by `["_"]`, the input is encoded (raising on invalid symbols
before any configuration exists), one initial configuration is created
at state 0, position 0, and the loop is entered with `num_steps = 0`.
With `verbose` the initial configuration is printed first, which raises
`NameError`. -/
def DeterministicTuringMachine.process_input (d : TuringMachineDescription)
    (input : List String) (fuel : Nat) (verbose : Bool) : Option TMOutcome :=
  let input := if input.length = 0 then ["_"] else input
  match encode_input d.alphabet input with
  | none => some TMOutcome.invalidInput
  | some tape =>
    match (if verbose then DeterministicTuringMachine.print_configuration else some ()) with
    | none => some TMOutcome.nameError
    | some _ => DeterministicTuringMachine.run_loop d verbose ⟨0, tape, 0⟩ 0 fuel

/-- The list of transition triples available to a configuration of the
nondeterministic engine: `state = self.description.transitions[configuration.state]`
followed by the `if tape_input in state` guard (no entry means no
triples). -/
def triplesAt (d : NondeterministicTuringMachineDescription)
    (c : TuringMachineConfiguration) : List (Nat × Nat × Bool) :=
  match d.transitions c.state (c.tape.getD c.position 0) with
  | some ts => ts
  | none => []

/-- All value-level successor configurations of `c`, one per transition
triple. -/
def nsuccs (d : NondeterministicTuringMachineDescription)
    (c : TuringMachineConfiguration) : List TuringMachineConfiguration :=
  (triplesAt d c).map (applyTriple c)

/-- Models the `for i, (to_state, tape_output, move_right) in enumerate(transitions)`
generator loop of `NondeterministicTuringMachine.perform_step` at the
level of configuration values: each triple is applied to the parent's
value (in the source, to a private copy of the parent's array, or to the
parent's own array for the last triple); a successor in the accepting
state aborts the whole traversal (`AcceptException`, `Except.error`),
one in the rejecting state is dropped, and the rest are yielded in
order. -/
def stepTriples (d : NondeterministicTuringMachineDescription)
    (c : TuringMachineConfiguration) :
    List (Nat × Nat × Bool) →
      Except TuringMachineConfiguration (List TuringMachineConfiguration)
  | [] => Except.ok []
  | t :: ts =>
    let conf := applyTriple c t
    if conf.state = d.accepting then
      Except.error conf
    else
      match stepTriples d c ts with
      | Except.error a => Except.error a
      | Except.ok l => Except.ok (if conf.state = d.rejecting then l else conf :: l)

/-- Models `NondeterministicTuringMachine.perform_step` (value level). -/
def NondeterministicTuringMachine.perform_step
    (d : NondeterministicTuringMachineDescription) (c : TuringMachineConfiguration) :
    Except TuringMachineConfiguration (List TuringMachineConfiguration) :=
  stepTriples d c (triplesAt d c)

/-- Models `list(itertools.chain.from_iterable(self.perform_step(c) for c in configurations))`:
the generators are drained left to right into one list; an
`AcceptException` raised by any of them aborts the whole construction. -/
def step_generation (d : NondeterministicTuringMachineDescription) :
    List TuringMachineConfiguration →
      Except TuringMachineConfiguration (List TuringMachineConfiguration)
  | [] => Except.ok []
  | c :: cs =>
    match NondeterministicTuringMachine.perform_step d c with
    | Except.error a => Except.error a
    | Except.ok l =>
      match step_generation d cs with
      | Except.error a => Except.error a
      | Except.ok l' => Except.ok (l ++ l')

/-- Models the `while True` loop of `NondeterministicTuringMachine.process_input`,
indexed by fuel: compute the next generation; an `AcceptException`
returns an accepted result with the current `num_steps`; an empty new
generation returns a rejected result; otherwise `num_steps` is
incremented and the loop continues. -/
def NondeterministicTuringMachine.run_loop (d : NondeterministicTuringMachineDescription) :
    List TuringMachineConfiguration → Nat → Nat → Option TMOutcome
  | _, _, 0 => none
  | cs, num_steps, fuel + 1 =>
    match step_generation d cs with
    | Except.error _ =>
      some (TMOutcome.result (TuringMachineResult.init num_steps true none))
    | Except.ok cs' =>
      if cs'.length = 0 then
        some (TMOutcome.result (TuringMachineResult.init num_steps false none))
      else
        NondeterministicTuringMachine.run_loop d cs' (num_steps + 1) fuel

/-- Models `NondeterministicTuringMachine.process_input`: empty input is
replaced by `["_"]`, the input is encoded (raising before any
configuration is created), and the generation loop starts from the
single initial configuration with `num_steps = 0`.  The `verbose` flag
is accepted and ignored, as in the source (its uses are commented out). -/
def NondeterministicTuringMachine.process_input
    (d : NondeterministicTuringMachineDescription) (input : List String)
    (fuel : Nat) (verbose : Bool) : Option TMOutcome :=
  let input := if input.length = 0 then ["_"] else input
  match encode_input d.alphabet input with
  | none => some TMOutcome.invalidInput
  | some tape => NondeterministicTuringMachine.run_loop d [⟨0, tape, 0⟩] 0 fuel

/-- A configuration reachable from `c0` in exactly `g` generations of the
nondeterministic engine: every intermediate and the final configuration
produced by a transition is neither accepting nor rejecting (such
configurations are removed from the live set). -/
def ReachN (d : NondeterministicTuringMachineDescription)
    (c0 : TuringMachineConfiguration) : Nat → TuringMachineConfiguration → Prop
  | 0, c => c = c0
  | g + 1, c =>
    ∃ b, ReachN d c0 g b ∧ c ∈ nsuccs d b ∧
      c.state ≠ d.accepting ∧ c.state ≠ d.rejecting

/-- There is a sequence of exactly `n` nondeterministic choices from `c`
that reaches the accepting state, never passing through the accepting or
rejecting state before its last step. -/
def acc_path (d : NondeterministicTuringMachineDescription) :
    Nat → TuringMachineConfiguration → Bool
  | 0, _ => false
  | 1, c => (nsuccs d c).any (fun x => x.state == d.accepting)
  | n + 2, c =>
    (nsuccs d c).any (fun x =>
      x.state != d.accepting && x.state != d.rejecting && acc_path d (n + 1) x)

/-- A store of numpy arrays: each live tape is an entry, addressed by its
index.  Used to model the in-place mutation and copy-on-fork behaviour
of `NondeterministicTuringMachine.perform_step` faithfully. -/
abbrev TapeStore : Type := List (List Nat)

/-- A configuration whose tape is a reference into a `TapeStore`. -/
structure HeapConfiguration where
  state : Nat
  tapeRef : Nat
  position : Nat
deriving DecidableEq, Repr

/-- Dereference a tape. -/
def readTape (σ : TapeStore) (r : Nat) : List Nat :=
  σ.getD r []

/-- Overwrite the array behind a reference. -/
def writeTape (σ : TapeStore) (r : Nat) (a : List Nat) : TapeStore :=
  σ.set r a

/-- The configuration value denoted by a heap configuration. -/
def toConfiguration (σ : TapeStore) (h : HeapConfiguration) : TuringMachineConfiguration :=
  ⟨h.state, readTape σ h.tapeRef, h.position⟩

/-- Models `NondeterministicTuringMachine.duplicate_configuration`:
`TuringMachineConfiguration(configuration.state, configuration.tape.copy(), configuration.position)`
— a fresh array is allocated holding a copy of the parent's tape. -/
def duplicate_configuration (σ : TapeStore) (c : HeapConfiguration) :
    TapeStore × HeapConfiguration :=
  (σ ++ [readTape σ c.tapeRef], ⟨c.state, σ.length, c.position⟩)

/-- The write/move/state-change sequence of the nondeterministic
`perform_step` body, mutating the array behind `c.tapeRef` in place
(`conf.tape[conf.position] = tape_output`, then the in-place
`conf.tape.resize(...)` when moving right past the end). -/
def applyTripleHeap (σ : TapeStore) (c : HeapConfiguration) (t : Nat × Nat × Bool) :
    TapeStore × HeapConfiguration :=
  let σ₁ := writeTape σ c.tapeRef ((readTape σ c.tapeRef).set c.position (t.2.1 % 256))
  if t.2.2 then
    if c.position + 1 = (readTape σ₁ c.tapeRef).length then
      (writeTape σ₁ c.tapeRef (readTape σ₁ c.tapeRef ++ [0]),
       ⟨t.1, c.tapeRef, c.position + 1⟩)
    else
      (σ₁, ⟨t.1, c.tapeRef, c.position + 1⟩)
  else if 0 < c.position then
    (σ₁, ⟨t.1, c.tapeRef, c.position - 1⟩)
  else
    (σ₁, ⟨t.1, c.tapeRef, c.position⟩)

/-- Store-level model of the generator loop of
`NondeterministicTuringMachine.perform_step`, keeping the source's
mutation order: for each triple except the last, `conf` is a freshly
allocated copy of the parent's (still unmodified) array
(`duplicate_configuration`); for the last triple, `conf` is the parent
itself and its array is mutated in place (`conf = configuration if i == len(transitions) - 1`).
A successor entering the accepting state raises, one entering the
rejecting state is dropped, the rest are yielded in order. -/
def step_triples_heap (d : NondeterministicTuringMachineDescription)
    (σ : TapeStore) (parent : HeapConfiguration) :
    List (Nat × Nat × Bool) →
      TapeStore × Except HeapConfiguration (List HeapConfiguration)
  | [] => (σ, Except.ok [])
  | t :: ts =>
    let p := if ts.isEmpty then (σ, parent) else duplicate_configuration σ parent
    let q := applyTripleHeap p.1 p.2 t
    if q.2.state = d.accepting then
      (q.1, Except.error q.2)
    else
      match step_triples_heap d q.1 parent ts with
      | (σ', Except.error a) => (σ', Except.error a)
      | (σ', Except.ok l) =>
        (σ', Except.ok (if q.2.state = d.rejecting then l else q.2 :: l))

/-- When every entry is blank, the Python break loop runs to completion
and `i` retains the final index `length - 1`. -/
lemma trimIdx_all_blank : ∀ r : List String, (∀ x ∈ r, x = "_") → trimIdx r = r.length - 1
  | [], _ => rfl
  | [_], _ => rfl
  | x :: y :: xs, hall => by
    have hx : x = "_" := hall x (List.mem_cons_self _ _)
    have ih := trimIdx_all_blank (y :: xs) (fun z hz => hall z (List.mem_cons_of_mem _ hz))
    simp only [trimIdx, if_pos hx, ih, List.length_cons]
    omega

/-- When some entry is non-blank, the break index is the length of the
leading all-blank block. -/
lemma trimIdx_exists_nonblank : ∀ r : List String, (∃ x ∈ r, x ≠ "_") →
    trimIdx r = (r.takeWhile (fun s => decide (s = "_"))).length
  | [], h => by simp at h
  | [x], h => by
    have hx : x ≠ "_" := by simpa using h
    simp [trimIdx, List.takeWhile, hx]
  | x :: y :: xs, h => by
    by_cases hx : x = "_"
    · have h' : ∃ z ∈ y :: xs, z ≠ "_" := by
        rcases h with ⟨z, hz, hzne⟩
        rcases List.mem_cons.1 hz with rfl | hz'
        · exact absurd hx hzne
        · exact ⟨z, hz', hzne⟩
      have ih := trimIdx_exists_nonblank (y :: xs) h'
      simp [trimIdx, hx, ih, List.takeWhile]
    · simp [trimIdx, hx, List.takeWhile_cons_of_neg, hx]

/-- `dropWhile` removes exactly the leading `takeWhile` block. -/
lemma dropWhile_eq_drop_length {α : Type} (p : α → Bool) : ∀ r : List α,
    r.dropWhile p = r.drop (r.takeWhile p).length
  | [] => rfl
  | x :: xs => by
    by_cases hx : p x
    · simp [List.dropWhile_cons, List.takeWhile_cons, hx, dropWhile_eq_drop_length p xs]
    · simp [List.dropWhile_cons, List.takeWhile_cons, hx]

/-- A list with an entry refuting `p` has a `takeWhile p` block shorter
than itself. -/
lemma length_takeWhile_lt_of_exists {α : Type} (p : α → Bool) : ∀ r : List α,
    (∃ x ∈ r, ¬ p x) → (r.takeWhile p).length < r.length
  | [], h => by simp at h
  | x :: xs, h => by
    by_cases hx : p x
    · have h' : ∃ z ∈ xs, ¬ p z := by
        rcases h with ⟨z, hz, hzp⟩
        rcases List.mem_cons.1 hz with rfl | hz'
        · exact absurd hx hzp
        · exact ⟨z, hz', hzp⟩
      have ih := length_takeWhile_lt_of_exists p xs h'
      simpa [List.takeWhile_cons, hx] using Nat.succ_lt_succ ih
    · simp [List.takeWhile_cons, hx]

/-- The trimming loop of `TuringMachineResult.__init__` computes exactly
the specification's trimming on every non-empty tape. -/
lemma trim_eq_specTrimmedTape : ∀ tape : List String, tape ≠ [] →
    TuringMachineResult.trim tape = specTrimmedTape tape := by
  intro tape htape
  by_cases hall : ∀ x ∈ tape.reverse, x = "_"
  · have hidx : trimIdx tape.reverse = tape.reverse.length - 1 := trimIdx_all_blank _ hall
    have hdw : tape.reverse.dropWhile (fun s => decide (s = "_")) = [] := by
      rw [List.dropWhile_eq_nil_iff]
      intro x hx
      simp [hall x hx]
    cases tape with
    | nil => exact absurd rfl htape
    | cons a as =>
      have ha : a = "_" := hall a (by simp)
      cases as with
      | nil =>
        subst ha
        simp [TuringMachineResult.trim, specTrimmedTape, trimIdx]
      | cons b bs =>
        have hi : trimIdx (a :: b :: bs).reverse = bs.length + 1 := by
          rw [hidx]
          simp
        have hspec : specTrimmedTape (a :: b :: bs) = ["_"] := by
          simp only [specTrimmedTape, hdw, List.reverse_nil]
          rfl
        have htrim : TuringMachineResult.trim (a :: b :: bs) = ["_"] := by
          simp only [TuringMachineResult.trim, if_neg htape, hi]
          have harith : (a :: b :: bs).length - (bs.length + 1) = 1 := by
            simp only [List.length_cons]
            omega
          subst ha
          simp [harith]
        rw [htrim, hspec]
  · push_neg at hall
    obtain ⟨x, hx, hxne⟩ := hall
    have hidx : trimIdx tape.reverse =
        (tape.reverse.takeWhile (fun s => decide (s = "_"))).length :=
      trimIdx_exists_nonblank _ ⟨x, hx, hxne⟩
    have hklt : (tape.reverse.takeWhile (fun s => decide (s = "_"))).length <
        tape.reverse.length :=
      length_takeWhile_lt_of_exists _ _ ⟨x, hx, by simp [hxne]⟩
    have hdw : tape.reverse.dropWhile (fun s => decide (s = "_")) =
        tape.reverse.drop (tape.reverse.takeWhile (fun s => decide (s = "_"))).length :=
      dropWhile_eq_drop_length _ _
    set k := (tape.reverse.takeWhile (fun s => decide (s = "_"))).length with hk
    rcases Nat.eq_zero_or_pos k with hk0 | hkpos
    · have hdrop : tape.reverse.drop k = tape.reverse := by
        rw [hk0]
        rfl
      simp [TuringMachineResult.trim, specTrimmedTape, hidx, ← hk, hk0, hdw, hdrop, htape]
    · have hdrop_ne : tape.reverse.drop k ≠ [] := by
        intro hnil
        have : (tape.reverse.drop k).length = 0 := by rw [hnil]; rfl
        rw [List.length_drop] at this
        omega
      have htake_eq : tape.take (tape.length - k) = (tape.reverse.drop k).reverse := by
        rw [show tape.take (tape.length - k) = List.rdrop tape k from rfl,
          List.rdrop_eq_reverse_drop_reverse]
      simp [TuringMachineResult.trim, specTrimmedTape, hidx, ← hk, hkpos, hdw, htake_eq,
        htape, hdrop_ne]

/-- The spec-level trimmed tape never ends in a blank unless it is the
lone blank. -/
lemma specTrimmedTape_last_not_blank (tape : List String) :
    specTrimmedTape tape = ["_"] ∨ (specTrimmedTape tape).getLast? ≠ some "_" := by
  by_cases hnil : (tape.reverse.dropWhile (fun s => decide (s = "_"))).reverse = []
  · left
    simp only [specTrimmedTape, hnil]
    rfl
  · right
    have hne : List.rdropWhile (fun s => decide (s = "_")) tape ≠ [] := hnil
    have hunf : specTrimmedTape tape = List.rdropWhile (fun s => decide (s = "_")) tape := by
      simp only [specTrimmedTape, List.rdropWhile]
      rw [if_neg hnil]
    have hlast := List.rdropWhile_last_not (fun s => decide (s = "_")) tape hne
    rw [hunf, List.getLast?_eq_getLast_of_ne_nil hne]
    intro hcontra
    apply hlast
    simp [Option.some.inj hcontra]

/-- C5: on every non-empty symbol list, the tape stored by
`TuringMachineResult` is the input with all trailing blanks removed
except that at least one symbol is always retained, so it never ends in
a blank unless it is exactly `["_"]`; in particular
`["1","0","_","_"]` trims to `["1","0"]` and `["_","_"]` to `["_"]`. -/
theorem C5_result_tape_trimming (tape : List String) (h : tape ≠ []) :
    TuringMachineResult.trim tape = specTrimmedTape tape ∧
    (TuringMachineResult.trim tape = ["_"] ∨
      (TuringMachineResult.trim tape).getLast? ≠ some "_") ∧
    TuringMachineResult.trim ["1", "0", "_", "_"] = ["1", "0"] ∧
    TuringMachineResult.trim ["_", "_"] = ["_"] := by
  refine ⟨trim_eq_specTrimmedTape tape h, ?_, by decide, by decide⟩
  rw [trim_eq_specTrimmedTape tape h]
  exact specTrimmedTape_last_not_blank tape

/-- Witness for C5 at the spec's own example. -/
theorem C5_result_tape_trimming_witness :
    TuringMachineResult.trim ["1", "0", "_", "_"] = specTrimmedTape ["1", "0", "_", "_"] :=
  (C5_result_tape_trimming ["1", "0", "_", "_"] (by decide)).1

/-- C9: for both engines, every machine description, every fuel value and
either verbose flag, processing the empty input returns exactly the same
outcome as processing `["_"]` (the first statement of both
`process_input` bodies replaces an empty input by `["_"]`). -/
theorem C9_empty_input_eq_blank (dd : TuringMachineDescription)
    (nd : NondeterministicTuringMachineDescription) (fuel : Nat) (verbose : Bool) :
    DeterministicTuringMachine.process_input dd [] fuel verbose =
      DeterministicTuringMachine.process_input dd ["_"] fuel verbose ∧
    NondeterministicTuringMachine.process_input nd [] fuel verbose =
      NondeterministicTuringMachine.process_input nd ["_"] fuel verbose :=
  ⟨rfl, rfl⟩

/-- C7: an input containing a symbol outside the alphabet makes both
engines fail with the invalid-input `TuringMachineError`, for every fuel
value — including fuel 0, showing the error is raised before any
configuration is created or step is run — and independently of the
verbose flag; different calls are unaffected since the engines are
modelled as pure functions of their arguments. -/
theorem C7_invalid_input_raises (dd : TuringMachineDescription)
    (nd : NondeterministicTuringMachineDescription) (input : List String) (s : String)
    (fuel : Nat) (verbose : Bool) (hs : s ∈ input) (hd : s ∉ dd.alphabet)
    (hn : s ∉ nd.alphabet) :
    DeterministicTuringMachine.process_input dd input fuel verbose =
      some TMOutcome.invalidInput ∧
    NondeterministicTuringMachine.process_input nd input fuel verbose =
      some TMOutcome.invalidInput := by
  have hne : ¬ input.length = 0 := by
    cases input with
    | nil => simp at hs
    | cons a as => simp
  have h1 : (if input.length = 0 then ["_"] else input) = input := if_neg hne
  have henc : ∀ alphabet : List String, s ∉ alphabet →
      encode_input alphabet input = none := by
    intro alphabet halph
    unfold encode_input
    rw [if_neg]
    intro hall
    rw [List.all_eq_true] at hall
    have := hall s hs
    simp at this
    exact halph this
  constructor
  · simp only [DeterministicTuringMachine.process_input, h1, henc dd.alphabet hd]
  · simp only [NondeterministicTuringMachine.process_input, h1, henc nd.alphabet hn]

/-- Witness for C7: a concrete machine over `{_, 0, 1}` and the input
`["x"]`. -/
theorem C7_invalid_input_raises_witness :
    DeterministicTuringMachine.process_input
      ⟨["_", "0", "1"], fun _ _ => none, 1, 2⟩ ["x"] 5 false =
        some TMOutcome.invalidInput ∧
    NondeterministicTuringMachine.process_input
      ⟨["_", "0", "1"], fun _ _ => none, 1, 2⟩ ["x"] 5 false =
        some TMOutcome.invalidInput :=
  C7_invalid_input_raises ⟨["_", "0", "1"], fun _ _ => none, 1, 2⟩
    ⟨["_", "0", "1"], fun _ _ => none, 1, 2⟩ ["x"] "x" 5 false (by decide)
    (by decide) (by decide)

/-- A 257-symbol alphabet of pairwise distinct symbols: the decimal
numerals "0", "1", ..., "256". -/
def bigAlphabet : List String := (List.range 257).map (fun n => toString n)

set_option maxRecDepth 8192 in
/-- C10: tape cells are stored as 8-bit unsigned integers: the encoding
stores each symbol's alphabet index reduced modulo 256, so it is
faithful whenever the alphabet has at most 256 symbols (encoding a
symbol and decoding the stored cell gives the symbol back), while for
the 257-symbol alphabet `bigAlphabet` the symbol "256" (alphabet index
256) is stored as 0 and decodes to the different symbol "0". -/
theorem C10_uint8_symbol_encoding (alphabet : List String) (s : String)
    (hs : s ∈ alphabet) (hlen : alphabet.length ≤ 256) :
    decode_tape alphabet ((encode_input alphabet [s]).getD []) = [s] ∧
    encode_input bigAlphabet ["256"] = some [0] ∧
    decode_tape bigAlphabet [0] = ["0"] ∧
    ("0" : String) ≠ "256" := by
  refine ⟨?_, by decide, by decide, by decide⟩
  have hlt : alphabet.indexOf s < alphabet.length := List.indexOf_lt_length.2 hs
  have hmod : alphabet.indexOf s % 256 = alphabet.indexOf s :=
    Nat.mod_eq_of_lt (Nat.lt_of_lt_of_le hlt hlen)
  have henc : encode_input alphabet [s] = some [alphabet.indexOf s % 256] := by
    simp [encode_input, hs]
  rw [henc]
  simp only [Option.getD_some, decode_tape, List.map_cons, List.map_nil, hmod]
  rw [List.getD_eq_getElem?_getD, List.getElem?_eq_getElem hlt,
    List.getElem_indexOf hlt]
  rfl

/-- Witness for C10 at the alphabet `{_, 0, 1}` and symbol "1". -/
theorem C10_uint8_symbol_encoding_witness :
    decode_tape ["_", "0", "1"] ((encode_input ["_", "0", "1"] ["1"]).getD []) = ["1"] :=
  (C10_uint8_symbol_encoding ["_", "0", "1"] "1" (by decide) (by decide)).1

/-- A machine with an empty transition table over the one-symbol
alphabet: every deterministic step is an implicit reject. -/
def noMoveMachine : TuringMachineDescription := ⟨["_"], fun _ _ => none, 1, 2⟩

/-- The spec's end-to-end example machine: alphabet `{_, 0, 1}`, states
q0/qacc/qrej at indices 0/1/2, and the single transition q0 on "1"
(symbol index 2) to (qacc, "1", right). -/
def exampleDTM : TuringMachineDescription :=
  ⟨["_", "0", "1"],
   fun s a => if s = 0 ∧ a = 2 then some (1, 2, true) else none,
   1, 2⟩

/-- A nondeterministic machine over the one-symbol alphabet whose
shortest accepting path has length 3 (states 0 → 1 → 2 → 3 = accept),
alongside an immediately rejecting branch (state 4) and an infinite
looping branch at state 0. -/
def threeStepNTM : NondeterministicTuringMachineDescription :=
  ⟨["_"],
   fun s a =>
     if s = 0 ∧ a = 0 then some [(4, 0, true), (1, 0, true), (0, 0, false)]
     else if s = 1 ∧ a = 0 then some [(2, 0, true)]
     else if s = 2 ∧ a = 0 then some [(3, 0, true)]
     else none,
   3, 4⟩

/-- Counterexample to C4 as stated: an implicit-reject step taken with
the head on the last cell advances the head but does not grow the tape,
so the resulting configuration is not the grown one the claim
describes. -/
theorem C4_counterexample :
    DeterministicTuringMachine.perform_step noMoveMachine ⟨0, [0], 0⟩ = ⟨2, [0], 1⟩ ∧
    DeterministicTuringMachine.perform_step noMoveMachine ⟨0, [0], 0⟩ ≠ ⟨2, [0, 0], 1⟩ := by
  decide

/-- C4 (amended): when the current state's transition mapping has no
entry for the scanned symbol, the deterministic step advances the head
right by exactly one cell *without* growing the tape (the position may
become equal to the tape length when the head was on the last cell),
sets the state to the rejecting state, and leaves the tape contents
unchanged. -/
theorem C4_implicit_reject (d : TuringMachineDescription)
    (c : TuringMachineConfiguration)
    (h : d.transitions c.state (c.tape.getD c.position 0) = none) :
    DeterministicTuringMachine.perform_step d c =
      ⟨d.rejecting, c.tape, c.position + 1⟩ := by
  unfold DeterministicTuringMachine.perform_step
  rw [h]

/-- Witness for C4 (amended) on a concrete machine and configuration. -/
theorem C4_implicit_reject_witness :
    DeterministicTuringMachine.perform_step noMoveMachine ⟨0, [0], 0⟩ =
      ⟨noMoveMachine.rejecting, [0], 0 + 1⟩ :=
  C4_implicit_reject noMoveMachine ⟨0, [0], 0⟩ rfl

/-- Counterexample to C6 as stated: after the implicit-reject step taken
with the head on the last cell, the deterministic engine leaves the head
position equal to the tape length, violating `position < len(tape)`. -/
theorem C6_counterexample :
    ¬ ((DeterministicTuringMachine.perform_step noMoveMachine ⟨0, [0], 0⟩).position <
        (DeterministicTuringMachine.perform_step noMoveMachine ⟨0, [0], 0⟩).tape.length) := by
  decide

/-- Applying any transition triple preserves `position < length`:
moving right grows the tape by one blank exactly when the head was on
the last cell, moving left clamps at 0. -/
lemma applyTriple_position_lt (c : TuringMachineConfiguration) (t : Nat × Nat × Bool)
    (h : c.position < c.tape.length) :
    (applyTriple c t).position < (applyTriple c t).tape.length := by
  simp only [applyTriple]
  split
  · split
    · rename_i hend
      simp only [List.length_append, List.length_set, List.length_singleton]
      simp only [List.length_set] at hend
      omega
    · rename_i hend
      simp only [List.length_set]
      simp only [List.length_set] at hend
      omega
  · split
    · simp only [List.length_set]
      omega
    · simp only [List.length_set]
      omega

/-- C6 (amended): starting from a configuration with `position < length`,
every transition-applying step of either engine preserves
`0 ≤ position < len(tape)`: a left move at position 0 stays at 0, and a
right move with the head on the last cell appends exactly one blank
(zero) cell.  The deterministic implicit-reject step is the exception:
it increments the position without growing the tape, so the position can
become equal to `len(tape)` (the cell is never read, as the machine has
halted). -/
theorem C6_position_invariant (dd : TuringMachineDescription)
    (nd : NondeterministicTuringMachineDescription)
    (c : TuringMachineConfiguration) (t : Nat × Nat × Bool)
    (h : c.position < c.tape.length) :
    ((applyTriple c t).position < (applyTriple c t).tape.length ∧
      (∀ x ∈ nsuccs nd c, x.position < x.tape.length)) ∧
    (∀ t', dd.transitions c.state (c.tape.getD c.position 0) = some t' →
      (DeterministicTuringMachine.perform_step dd c).position <
        (DeterministicTuringMachine.perform_step dd c).tape.length) ∧
    (dd.transitions c.state (c.tape.getD c.position 0) = none →
      (DeterministicTuringMachine.perform_step dd c).position = c.position + 1 ∧
      (DeterministicTuringMachine.perform_step dd c).tape = c.tape) ∧
    (c.position = 0 → t.2.2 = false → (applyTriple c t).position = 0) ∧
    (t.2.2 = true → c.position + 1 = c.tape.length →
      (applyTriple c t).tape = c.tape.set c.position (t.2.1 % 256) ++ [0] ∧
      (applyTriple c t).position = c.position + 1) := by
  refine ⟨⟨applyTriple_position_lt c t h, ?_⟩, ?_, ?_, ?_, ?_⟩
  · intro x hx
    rcases List.mem_map.1 hx with ⟨t', _, rfl⟩
    exact applyTriple_position_lt c t' h
  · intro t' ht'
    unfold DeterministicTuringMachine.perform_step
    rw [ht']
    exact applyTriple_position_lt c t' h
  · intro hnone
    unfold DeterministicTuringMachine.perform_step
    rw [hnone]
    exact ⟨rfl, rfl⟩
  · intro hpos hmr
    simp only [applyTriple, hmr, Bool.false_eq_true, if_false, hpos]
    simp
  · intro hmr hend
    have hend' : c.position + 1 = (c.tape.set c.position (t.2.1 % 256)).length := by
      rw [List.length_set]
      exact hend
    simp [applyTriple, hmr, if_pos hend', hend]

/-- Witness for C6 (amended) on the example machine's first step. -/
theorem C6_position_invariant_witness :
    (applyTriple ⟨0, [2], 0⟩ (1, 2, true)).position <
      (applyTriple ⟨0, [2], 0⟩ (1, 2, true)).tape.length :=
  (C6_position_invariant exampleDTM threeStepNTM ⟨0, [2], 0⟩ (1, 2, true) (by decide)).1.1

/-- C8 (exhibiting the code bug): with the example machine and input
`["1"]`, `process_input` with `verbose=True` dies with a `NameError`
(`print_configuration` reads the module global `description`, which is
never bound — the module imports only the class
`TuringMachineDescription`), while `verbose=False` returns a normal
result, so the verbose flag does change control flow and result; the
nondeterministic engine ignores the flag entirely (its verbose code is
commented out). -/
theorem C8_verbose_affects_result :
    DeterministicTuringMachine.process_input exampleDTM ["1"] 10 true =
      some TMOutcome.nameError ∧
    DeterministicTuringMachine.process_input exampleDTM ["1"] 10 false =
      some (TMOutcome.result ⟨0, true, some ["1"]⟩) ∧
    DeterministicTuringMachine.print_configuration = none ∧
    (∀ (nd : NondeterministicTuringMachineDescription) (input : List String) (fuel : Nat),
      NondeterministicTuringMachine.process_input nd input fuel true =
        NondeterministicTuringMachine.process_input nd input fuel false) :=
  ⟨by decide, by decide, by decide, fun _ _ _ => rfl⟩

/-- Counterexample to C1 as stated: on the spec's own end-to-end example
the code returns `num_steps = 0`, not 1: the `num_steps += 1` statement
runs only after the accept check, so the halting transition is never
counted. -/
theorem C1_counterexample :
    DeterministicTuringMachine.process_input exampleDTM ["1"] 10 false =
      some (TMOutcome.result ⟨0, true, some ["1"]⟩) ∧
    DeterministicTuringMachine.process_input exampleDTM ["1"] 10 false ≠
      some (TMOutcome.result ⟨1, true, some ["1"]⟩) := by
  decide

/-- One unfolding of the non-verbose deterministic loop. -/
lemma run_loop_succ (d : TuringMachineDescription) (c : TuringMachineConfiguration)
    (k f : Nat) :
    DeterministicTuringMachine.run_loop d false c k (f + 1) =
      (if (DeterministicTuringMachine.perform_step d c).state = d.accepting then
        some (TMOutcome.result (TuringMachineResult.init k true
          (some (decode_tape d.alphabet (DeterministicTuringMachine.perform_step d c).tape))))
      else if (DeterministicTuringMachine.perform_step d c).state = d.rejecting then
        some (TMOutcome.result (TuringMachineResult.init k false
          (some (decode_tape d.alphabet (DeterministicTuringMachine.perform_step d c).tape))))
      else
        DeterministicTuringMachine.run_loop d false
          (DeterministicTuringMachine.perform_step d c) (k + 1) f) := rfl

/-- `run` unfolds from the front. -/
lemma run_succ (d : TuringMachineDescription) (c : TuringMachineConfiguration) (n : Nat) :
    DeterministicTuringMachine.run d c (n + 1) =
      DeterministicTuringMachine.run d (DeterministicTuringMachine.perform_step d c) n := rfl

/-- Completeness of the deterministic loop: if the iterated step function
first halts after `n ≥ 1` steps, then with at least `n` fuel the loop
returns the halting configuration's verdict and decoded tape, reporting
a step count of `k + n - 1` when entered with counter `k`: one less step
than the number of transitions applied. -/
lemma run_loop_complete (d : TuringMachineDescription) : ∀ (n : Nat)
    (c : TuringMachineConfiguration) (k fuel : Nat),
    0 < n → n ≤ fuel →
    haltedD d (DeterministicTuringMachine.run d c n) →
    (∀ m, m < n → 0 < m → ¬ haltedD d (DeterministicTuringMachine.run d c m)) →
    DeterministicTuringMachine.run_loop d false c k fuel =
      some (TMOutcome.result (TuringMachineResult.init (k + n - 1)
        (decide ((DeterministicTuringMachine.run d c n).state = d.accepting))
        (some (decode_tape d.alphabet (DeterministicTuringMachine.run d c n).tape)))) := by
  intro n
  induction n with
  | zero => intro c k fuel h0; omega
  | succ m ih =>
    intro c k fuel _ hfuel hhalt hmin
    cases fuel with
    | zero => omega
    | succ f =>
      rw [run_loop_succ]
      cases m with
      | zero =>
        have hrun : DeterministicTuringMachine.run d c 1 =
            DeterministicTuringMachine.perform_step d c := rfl
        rw [hrun] at hhalt ⊢
        by_cases hacc : (DeterministicTuringMachine.perform_step d c).state = d.accepting
        · rw [if_pos hacc]
          simp [hacc]
        · have hrej : (DeterministicTuringMachine.perform_step d c).state = d.rejecting := by
            rcases hhalt with h1 | h1
            · exact absurd h1 hacc
            · exact h1
          rw [if_neg hacc, if_pos hrej]
          simp [hacc]
      | succ m' =>
        have hnh : ¬ haltedD d (DeterministicTuringMachine.perform_step d c) := by
          have := hmin 1 (by omega) (by omega)
          simpa [DeterministicTuringMachine.run] using this
        have hacc : ¬ (DeterministicTuringMachine.perform_step d c).state = d.accepting :=
          fun hc => hnh (Or.inl hc)
        have hrej : ¬ (DeterministicTuringMachine.perform_step d c).state = d.rejecting :=
          fun hc => hnh (Or.inr hc)
        rw [if_neg hacc, if_neg hrej]
        have hres := ih (DeterministicTuringMachine.perform_step d c) (k + 1) f
          (by omega) (by omega)
          (by rw [← run_succ]; exact hhalt)
          (by
            intro j hj hj0
            have := hmin (j + 1) (by omega) (by omega)
            rw [run_succ] at this
            exact this)
        rw [hres]
        have harith : k + 1 + (m' + 1) - 1 = k + (m' + 1 + 1) - 1 := by omega
        rw [harith, ← run_succ]

/-- Soundness of the deterministic loop: a returned outcome always comes
from the first halting point of the iterated step function, with step
count one less than the number of steps applied. -/
lemma run_loop_sound (d : TuringMachineDescription) : ∀ (fuel : Nat)
    (c : TuringMachineConfiguration) (k : Nat) (o : TMOutcome),
    DeterministicTuringMachine.run_loop d false c k fuel = some o →
    ∃ n, 0 < n ∧ n ≤ fuel ∧ haltedD d (DeterministicTuringMachine.run d c n) ∧
      (∀ m, m < n → 0 < m → ¬ haltedD d (DeterministicTuringMachine.run d c m)) ∧
      o = TMOutcome.result (TuringMachineResult.init (k + n - 1)
        (decide ((DeterministicTuringMachine.run d c n).state = d.accepting))
        (some (decode_tape d.alphabet (DeterministicTuringMachine.run d c n).tape))) := by
  intro fuel
  induction fuel with
  | zero => intro c k o h; exact absurd h (by simp [DeterministicTuringMachine.run_loop])
  | succ f ih =>
    intro c k o h
    rw [run_loop_succ] at h
    by_cases hacc : (DeterministicTuringMachine.perform_step d c).state = d.accepting
    · rw [if_pos hacc] at h
      refine ⟨1, by omega, by omega, Or.inl hacc, by omega, ?_⟩
      have hrun : DeterministicTuringMachine.run d c 1 =
          DeterministicTuringMachine.perform_step d c := rfl
      rw [hrun]
      simp only [Option.some.injEq] at h
      subst h
      simp [hacc]
    · rw [if_neg hacc] at h
      by_cases hrej : (DeterministicTuringMachine.perform_step d c).state = d.rejecting
      · rw [if_pos hrej] at h
        refine ⟨1, by omega, by omega, Or.inr hrej, by omega, ?_⟩
        have hrun : DeterministicTuringMachine.run d c 1 =
            DeterministicTuringMachine.perform_step d c := rfl
        rw [hrun]
        simp only [Option.some.injEq] at h
        subst h
        simp [hacc]
      · rw [if_neg hrej] at h
        obtain ⟨n, hn0, hnf, hhalt, hmin, ho⟩ :=
          ih (DeterministicTuringMachine.perform_step d c) (k + 1) o h
        refine ⟨n + 1, by omega, by omega, by rw [run_succ]; exact hhalt, ?_, ?_⟩
        · intro m hm hm0
          cases m with
          | zero => omega
          | succ j =>
            cases j with
            | zero =>
              intro hc
              have : haltedD d (DeterministicTuringMachine.perform_step d c) := by
                simpa [DeterministicTuringMachine.run] using hc
              rcases this with h1 | h1
              · exact hacc h1
              · exact hrej h1
            | succ j' =>
              have := hmin (j' + 1 + 1 - 1) (by omega) (by omega)
              rw [run_succ]
              simpa using this
        · rw [run_succ]
          have harith : k + 1 + n - 1 = k + (n + 1) - 1 := by omega
          rw [← harith]
          exact ho

/-- C1 (amended): for a well-formed deterministic machine and valid
input (the encoding succeeds), if the iterated step function first
reaches the accepting or rejecting state after `n ≥ 1` transitions,
`process_input` (with enough fuel) terminates with `accepted = True` iff
that halting state is the accepting state, and returns the decoded,
trimmed final tape — but the reported `num_steps` is `n - 1`, one LESS
than the number of transitions applied (the loop counter is incremented
only after the accept/reject check); on the spec's example machine the
result is therefore `num_steps = 0`, not 1.  Conversely every returned
outcome arises this way from the first halting point of the run. -/
theorem C1_det_process_input_correct (d : TuringMachineDescription)
    (input : List String) (t0 : List Nat) (n fuel : Nat)
    (henc : encode_input d.alphabet (if input.length = 0 then ["_"] else input) = some t0)
    (hn : 0 < n) (hfuel : n ≤ fuel)
    (hhalt : haltedD d (DeterministicTuringMachine.run d ⟨0, t0, 0⟩ n))
    (hmin : ∀ m, m < n → 0 < m →
      ¬ haltedD d (DeterministicTuringMachine.run d ⟨0, t0, 0⟩ m)) :
    DeterministicTuringMachine.process_input d input fuel false =
      some (TMOutcome.result (TuringMachineResult.init (n - 1)
        (decide ((DeterministicTuringMachine.run d ⟨0, t0, 0⟩ n).state = d.accepting))
        (some (decode_tape d.alphabet
          (DeterministicTuringMachine.run d ⟨0, t0, 0⟩ n).tape)))) ∧
    (∀ o, DeterministicTuringMachine.process_input d input fuel false = some o →
      ∃ m, 0 < m ∧ m ≤ fuel ∧
        haltedD d (DeterministicTuringMachine.run d ⟨0, t0, 0⟩ m) ∧
        o = TMOutcome.result (TuringMachineResult.init (m - 1)
          (decide ((DeterministicTuringMachine.run d ⟨0, t0, 0⟩ m).state = d.accepting))
          (some (decode_tape d.alphabet
            (DeterministicTuringMachine.run d ⟨0, t0, 0⟩ m).tape)))) := by
  have hunf : DeterministicTuringMachine.process_input d input fuel false =
      DeterministicTuringMachine.run_loop d false ⟨0, t0, 0⟩ 0 fuel := by
    simp only [DeterministicTuringMachine.process_input, henc]
    rfl
  constructor
  · rw [hunf]
    have := run_loop_complete d n ⟨0, t0, 0⟩ 0 fuel hn hfuel hhalt hmin
    simpa using this
  · intro o ho
    rw [hunf] at ho
    obtain ⟨m, hm0, hmf, hmh, _, homega⟩ := run_loop_sound d fuel ⟨0, t0, 0⟩ 0 o ho
    refine ⟨m, hm0, hmf, hmh, ?_⟩
    simpa using homega

/-- Witness for C1 (amended) on the spec's example machine: one
transition is applied and the reported step count is `1 - 1 = 0`. -/
theorem C1_det_process_input_correct_witness :
    DeterministicTuringMachine.process_input exampleDTM ["1"] 10 false =
      some (TMOutcome.result (TuringMachineResult.init (1 - 1)
        (decide ((DeterministicTuringMachine.run exampleDTM ⟨0, [2], 0⟩ 1).state =
          exampleDTM.accepting))
        (some (decode_tape exampleDTM.alphabet
          (DeterministicTuringMachine.run exampleDTM ⟨0, [2], 0⟩ 1).tape)))) :=
  (C1_det_process_input_correct exampleDTM ["1"] [2] 1 10 (by decide) (by decide)
    (by decide) (by decide) (by decide)).1

/-- A successful traversal of the fork loop means no successor entered
the accepting state, and the yielded configurations are exactly the
non-rejecting successors. -/
lemma stepTriples_ok (d : NondeterministicTuringMachineDescription)
    (c : TuringMachineConfiguration) : ∀ (ts : List (Nat × Nat × Bool))
    (l : List TuringMachineConfiguration), stepTriples d c ts = Except.ok l →
    (∀ t ∈ ts, (applyTriple c t).state ≠ d.accepting) ∧
    (∀ x, x ∈ l ↔ ∃ t ∈ ts, x = applyTriple c t ∧ x.state ≠ d.rejecting)
  | [], l, h => by
    simp only [stepTriples, Except.ok.injEq] at h
    subst h
    exact ⟨by simp, by simp⟩
  | t :: ts, l, h => by
    by_cases hacc : (applyTriple c t).state = d.accepting
    · rw [stepTriples, if_pos hacc] at h
      exact Except.noConfusion h
    · rw [stepTriples, if_neg hacc] at h
      cases h' : stepTriples d c ts with
      | error a =>
        rw [h'] at h
        exact Except.noConfusion h
      | ok l' =>
        rw [h'] at h
        simp only [Except.ok.injEq] at h
        obtain ⟨hna, hmem⟩ := stepTriples_ok d c ts l' h'
        subst h
        constructor
        · intro t' ht'
          rcases List.mem_cons.1 ht' with rfl | ht''
          · exact hacc
          · exact hna t' ht''
        · intro x
          by_cases hrej : (applyTriple c t).state = d.rejecting
          · rw [if_pos hrej, hmem x]
            constructor
            · rintro ⟨t', ht', hxe, hx⟩
              exact ⟨t', List.mem_cons_of_mem _ ht', hxe, hx⟩
            · rintro ⟨t', ht', rfl, hx⟩
              rcases List.mem_cons.1 ht' with heq | ht''
              · exact absurd (heq ▸ hrej) hx
              · exact ⟨t', ht'', rfl, hx⟩
          · rw [if_neg hrej]
            simp only [List.mem_cons]
            constructor
            · rintro (rfl | hx)
              · exact ⟨t, Or.inl rfl, rfl, hrej⟩
              · obtain ⟨t', ht', hxe, hxr⟩ := (hmem x).1 hx
                exact ⟨t', Or.inr ht', hxe, hxr⟩
            · rintro ⟨t', ht', rfl, hxr⟩
              rcases ht' with heq | ht''
              · exact Or.inl (by rw [heq])
              · exact Or.inr ((hmem _).2 ⟨t', ht'', rfl, hxr⟩)

/-- An aborted traversal of the fork loop returns an accepting successor
of the parent. -/
lemma stepTriples_error (d : NondeterministicTuringMachineDescription)
    (c : TuringMachineConfiguration) : ∀ ts a, stepTriples d c ts = Except.error a →
    a.state = d.accepting ∧ ∃ t ∈ ts, a = applyTriple c t
  | [], a, h => by
    exact Except.noConfusion h
  | t :: ts, a, h => by
    by_cases hacc : (applyTriple c t).state = d.accepting
    · rw [stepTriples, if_pos hacc] at h
      simp only [Except.error.injEq] at h
      subst h
      exact ⟨hacc, t, List.mem_cons_self _ _, rfl⟩
    · rw [stepTriples, if_neg hacc] at h
      cases h' : stepTriples d c ts with
      | error a' =>
        rw [h'] at h
        simp only [Except.error.injEq] at h
        subst h
        obtain ⟨h1, t', ht', h2⟩ := stepTriples_error d c ts a' h'
        exact ⟨h1, t', List.mem_cons_of_mem _ ht', h2⟩
      | ok l' =>
        rw [h'] at h
        exact Except.noConfusion h

/-- If some triple leads to the accepting state, the fork loop aborts. -/
lemma stepTriples_error_exists (d : NondeterministicTuringMachineDescription)
    (c : TuringMachineConfiguration) : ∀ ts,
    (∃ t ∈ ts, (applyTriple c t).state = d.accepting) →
    ∃ a, stepTriples d c ts = Except.error a
  | [], h => by simp at h
  | t :: ts, h => by
    by_cases hacc : (applyTriple c t).state = d.accepting
    · exact ⟨applyTriple c t, by rw [stepTriples, if_pos hacc]⟩
    · have h' : ∃ t' ∈ ts, (applyTriple c t').state = d.accepting := by
        rcases h with ⟨t', ht', hs⟩
        rcases List.mem_cons.1 ht' with heq | htm
        · exact absurd (heq ▸ hs) hacc
        · exact ⟨t', htm, hs⟩
      obtain ⟨a, ha⟩ := stepTriples_error_exists d c ts h'
      refine ⟨a, ?_⟩
      rw [stepTriples, if_neg hacc, ha]

/-- A successful generation step yields exactly the non-rejecting
successors of the live set, none of which is accepting. -/
lemma step_generation_ok (d : NondeterministicTuringMachineDescription) :
    ∀ cs l, step_generation d cs = Except.ok l →
    (∀ c ∈ cs, ∀ t ∈ triplesAt d c, (applyTriple c t).state ≠ d.accepting) ∧
    (∀ x, x ∈ l ↔ ∃ c ∈ cs, ∃ t ∈ triplesAt d c,
      x = applyTriple c t ∧ x.state ≠ d.rejecting)
  | [], l, h => by
    simp only [step_generation, Except.ok.injEq] at h
    subst h
    exact ⟨by simp, by simp⟩
  | c :: cs, l, h => by
    rw [step_generation] at h
    cases h1 : NondeterministicTuringMachine.perform_step d c with
    | error a =>
      rw [h1] at h
      exact Except.noConfusion h
    | ok lc =>
      rw [h1] at h
      cases h2 : step_generation d cs with
      | error a =>
        rw [h2] at h
        exact Except.noConfusion h
      | ok lcs =>
        rw [h2] at h
        simp only [Except.ok.injEq] at h
        subst h
        obtain ⟨hna1, hm1⟩ := stepTriples_ok d c (triplesAt d c) lc h1
        obtain ⟨hna2, hm2⟩ := step_generation_ok d cs lcs h2
        constructor
        · intro c' hc' t ht
          rcases List.mem_cons.1 hc' with heq | hcm
          · subst heq
            exact hna1 t ht
          · exact hna2 c' hcm t ht
        · intro x
          rw [List.mem_append]
          constructor
          · rintro (hx | hx)
            · obtain ⟨t, ht, hxe, hxr⟩ := (hm1 x).1 hx
              exact ⟨c, List.mem_cons_self _ _, t, ht, hxe, hxr⟩
            · obtain ⟨c', hc', t, ht, hxe, hxr⟩ := (hm2 x).1 hx
              exact ⟨c', List.mem_cons_of_mem _ hc', t, ht, hxe, hxr⟩
          · rintro ⟨c', hc', t, ht, hxe, hxr⟩
            rcases List.mem_cons.1 hc' with heq | hcm
            · subst heq
              exact Or.inl ((hm1 x).2 ⟨t, ht, hxe, hxr⟩)
            · exact Or.inr ((hm2 x).2 ⟨c', hcm, t, ht, hxe, hxr⟩)

/-- An aborted generation step returns an accepting successor of some
live configuration. -/
lemma step_generation_error (d : NondeterministicTuringMachineDescription) :
    ∀ cs a, step_generation d cs = Except.error a →
    a.state = d.accepting ∧ ∃ c ∈ cs, ∃ t ∈ triplesAt d c, a = applyTriple c t
  | [], a, h => by
    exact Except.noConfusion h
  | c :: cs, a, h => by
    rw [step_generation] at h
    cases h1 : NondeterministicTuringMachine.perform_step d c with
    | error a' =>
      rw [h1] at h
      simp only [Except.error.injEq] at h
      subst h
      obtain ⟨hs, t, ht, he⟩ := stepTriples_error d c (triplesAt d c) a' h1
      exact ⟨hs, c, List.mem_cons_self _ _, t, ht, he⟩
    | ok lc =>
      rw [h1] at h
      cases h2 : step_generation d cs with
      | error a' =>
        rw [h2] at h
        simp only [Except.error.injEq] at h
        subst h
        obtain ⟨hs, c', hc', t, ht, he⟩ := step_generation_error d cs a' h2
        exact ⟨hs, c', List.mem_cons_of_mem _ hc', t, ht, he⟩
      | ok lcs =>
        rw [h2] at h
        exact Except.noConfusion h

/-- If some live configuration has an accepting successor, the
generation step aborts. -/
lemma step_generation_error_exists (d : NondeterministicTuringMachineDescription) :
    ∀ cs, (∃ c ∈ cs, ∃ t ∈ triplesAt d c, (applyTriple c t).state = d.accepting) →
    ∃ a, step_generation d cs = Except.error a
  | [], h => by simp at h
  | c :: cs, h => by
    rw [step_generation]
    cases h1 : NondeterministicTuringMachine.perform_step d c with
    | error a => exact ⟨a, rfl⟩
    | ok lc =>
      have h' : ∃ c' ∈ cs, ∃ t ∈ triplesAt d c', (applyTriple c' t).state = d.accepting := by
        rcases h with ⟨c', hc', t, ht, hs⟩
        rcases List.mem_cons.1 hc' with heq | hcm
        · subst heq
          obtain ⟨hna, _⟩ := stepTriples_ok d c' (triplesAt d c') lc h1
          exact absurd hs (hna t ht)
        · exact ⟨c', hcm, t, ht, hs⟩
      obtain ⟨a, ha⟩ := step_generation_error_exists d cs h'
      rw [ha]
      exact ⟨a, rfl⟩

/-- Reachability unfolds from the front: a pruned path of length `g + 1`
is a pruned first step followed by a pruned path of length `g`. -/
lemma ReachN_head (d : NondeterministicTuringMachineDescription)
    (c0 : TuringMachineConfiguration) : ∀ (g : Nat) (x : TuringMachineConfiguration),
    ReachN d c0 (g + 1) x ↔ ∃ c1, (c1 ∈ nsuccs d c0 ∧ c1.state ≠ d.accepting ∧
      c1.state ≠ d.rejecting) ∧ ReachN d c1 g x
  | 0, x => by
    simp only [ReachN]
    constructor
    · rintro ⟨b, rfl, hx, h1, h2⟩
      exact ⟨x, ⟨hx, h1, h2⟩, rfl⟩
    · rintro ⟨c1, ⟨hm, h1, h2⟩, rfl⟩
      exact ⟨c0, rfl, hm, h1, h2⟩
  | g + 1, x => by
    constructor
    · intro h
      obtain ⟨b, hb, hx, h1, h2⟩ := h
      obtain ⟨c1, hc1, hb'⟩ := (ReachN_head d c0 g b).1 hb
      exact ⟨c1, hc1, b, hb', hx, h1, h2⟩
    · rintro ⟨c1, hc1, hr⟩
      obtain ⟨b, hb, hx, h1, h2⟩ := hr
      exact ⟨b, (ReachN_head d c0 g b).2 ⟨c1, hc1, hb⟩, hx, h1, h2⟩

/-- An accepting choice sequence of length `L + 1` is a pruned path of
length `L` followed by one accepting successor. -/
lemma acc_path_iff_reach (d : NondeterministicTuringMachineDescription) :
    ∀ (L : Nat) (c0 : TuringMachineConfiguration),
    acc_path d (L + 1) c0 = true ↔ ∃ b, ReachN d c0 L b ∧
      ∃ x ∈ nsuccs d b, x.state = d.accepting
  | 0, c0 => by
    simp only [acc_path, List.any_eq_true, beq_iff_eq]
    constructor
    · rintro ⟨x, hx, hs⟩
      exact ⟨c0, rfl, x, hx, hs⟩
    · rintro ⟨b, hb, x, hx, hs⟩
      have hb' : b = c0 := hb
      subst hb'
      exact ⟨x, hx, hs⟩
  | L + 1, c0 => by
    simp only [acc_path, List.any_eq_true, Bool.and_eq_true, bne_iff_ne]
    constructor
    · rintro ⟨x, hx, ⟨hna, hnr⟩, hap⟩
      obtain ⟨b, hb, hacc⟩ := (acc_path_iff_reach d L x).1 hap
      exact ⟨b, (ReachN_head d c0 L b).2 ⟨x, ⟨hx, hna, hnr⟩, hb⟩, hacc⟩
    · rintro ⟨b, hb, hacc⟩
      obtain ⟨c1, ⟨hm, h1, h2⟩, hb'⟩ := (ReachN_head d c0 L b).1 hb
      exact ⟨c1, hm, ⟨h1, h2⟩, (acc_path_iff_reach d L c1).2 ⟨b, hb', hacc⟩⟩

/-- Once a generation is empty, all later generations are empty. -/
lemma ReachN_empty_mono (d : NondeterministicTuringMachineDescription)
    (c0 : TuringMachineConfiguration) (g : Nat)
    (h : ∀ x, ¬ ReachN d c0 g x) :
    ∀ (k : Nat) (x : TuringMachineConfiguration), ¬ ReachN d c0 (g + k) x
  | 0, x => h x
  | k + 1, x => by
    intro hr
    obtain ⟨b, hb, _⟩ := hr
    exact ReachN_empty_mono d c0 g h k b hb

/-- Invariant transfer: if the live set is exactly the configurations
reachable in `g` pruned steps, a successful generation step produces
exactly those reachable in `g + 1`. -/
lemma step_generation_inv (d : NondeterministicTuringMachineDescription)
    (c0 : TuringMachineConfiguration) (g : Nat)
    (cs l : List TuringMachineConfiguration)
    (hinv : ∀ x, x ∈ cs ↔ ReachN d c0 g x)
    (h : step_generation d cs = Except.ok l) :
    ∀ x, x ∈ l ↔ ReachN d c0 (g + 1) x := by
  obtain ⟨hna, hm⟩ := step_generation_ok d cs l h
  intro x
  rw [hm x]
  simp only [ReachN]
  constructor
  · rintro ⟨c, hc, t, ht, rfl, hr⟩
    exact ⟨c, (hinv c).1 hc, List.mem_map.2 ⟨t, ht, rfl⟩, hna c hc t ht, hr⟩
  · rintro ⟨b, hb, hmem, hnacc, hnrej⟩
    obtain ⟨t, ht, rfl⟩ := List.mem_map.1 hmem
    exact ⟨b, (hinv b).2 hb, t, ht, rfl, hnrej⟩

/-- With the invariant in hand, a generation step aborts exactly when an
accepting choice sequence of length `g + 1` exists. -/
lemma step_generation_abort_iff (d : NondeterministicTuringMachineDescription)
    (c0 : TuringMachineConfiguration) (g : Nat)
    (cs : List TuringMachineConfiguration)
    (hinv : ∀ x, x ∈ cs ↔ ReachN d c0 g x) :
    (∃ a, step_generation d cs = Except.error a) ↔ acc_path d (g + 1) c0 = true := by
  constructor
  · rintro ⟨a, ha⟩
    obtain ⟨hs, c, hc, t, ht, rfl⟩ := step_generation_error d cs a ha
    exact (acc_path_iff_reach d g c0).2
      ⟨c, (hinv c).1 hc, applyTriple c t, List.mem_map.2 ⟨t, ht, rfl⟩, hs⟩
  · intro hap
    obtain ⟨b, hb, x, hx, hs⟩ := (acc_path_iff_reach d g c0).1 hap
    obtain ⟨t, ht, rfl⟩ := List.mem_map.1 hx
    exact step_generation_error_exists d cs ⟨b, (hinv b).2 hb, t, ht, hs⟩

/-- One unfolding of the nondeterministic loop. -/
lemma nondet_run_loop_succ (d : NondeterministicTuringMachineDescription)
    (cs : List TuringMachineConfiguration) (k f : Nat) :
    NondeterministicTuringMachine.run_loop d cs k (f + 1) =
      (match step_generation d cs with
       | Except.error _ => some (TMOutcome.result (TuringMachineResult.init k true none))
       | Except.ok cs' =>
         if cs'.length = 0 then
           some (TMOutcome.result (TuringMachineResult.init k false none))
         else NondeterministicTuringMachine.run_loop d cs' (k + 1) f) := rfl

/-- The loop on an aborting generation. -/
lemma nondet_run_loop_succ_error (d : NondeterministicTuringMachineDescription)
    (cs : List TuringMachineConfiguration) (k f : Nat)
    (a : TuringMachineConfiguration) (h : step_generation d cs = Except.error a) :
    NondeterministicTuringMachine.run_loop d cs k (f + 1) =
      some (TMOutcome.result (TuringMachineResult.init k true none)) := by
  rw [nondet_run_loop_succ, h]

/-- The loop on a successful generation. -/
lemma nondet_run_loop_succ_ok (d : NondeterministicTuringMachineDescription)
    (cs : List TuringMachineConfiguration) (k f : Nat)
    (l : List TuringMachineConfiguration) (h : step_generation d cs = Except.ok l) :
    NondeterministicTuringMachine.run_loop d cs k (f + 1) =
      (if l.length = 0 then
        some (TMOutcome.result (TuringMachineResult.init k false none))
      else NondeterministicTuringMachine.run_loop d l (k + 1) f) := by
  rw [nondet_run_loop_succ, h]

/-- BFS completeness: if the shortest accepting choice sequence has
length `L` and the live set at generation `g < L` satisfies the
invariant, the loop (with enough fuel) terminates accepted with step
count `L - 1`. -/
lemma nondet_run_loop_accept (d : NondeterministicTuringMachineDescription)
    (c0 : TuringMachineConfiguration) (L : Nat)
    (hL : acc_path d L c0 = true)
    (hmin : ∀ l, l < L → acc_path d l c0 = false) :
    ∀ (fuel g : Nat) (cs : List TuringMachineConfiguration), g < L → L ≤ g + fuel →
      (∀ x, x ∈ cs ↔ ReachN d c0 g x) →
      NondeterministicTuringMachine.run_loop d cs g fuel =
        some (TMOutcome.result (TuringMachineResult.init (L - 1) true none))
  | 0, g, cs, hg, hf, _ => by omega
  | fuel + 1, g, cs, hg, hf, hinv => by
    cases hsg : step_generation d cs with
    | error a =>
      have hap : acc_path d (g + 1) c0 = true :=
        (step_generation_abort_iff d c0 g cs hinv).1 ⟨a, hsg⟩
      have hgl : g = L - 1 := by
        by_contra hne
        have hlt : g + 1 < L := by omega
        rw [hmin (g + 1) hlt] at hap
        exact Bool.noConfusion hap
      rw [nondet_run_loop_succ_error d cs g fuel a hsg, hgl]
    | ok l =>
      have hnap : acc_path d (g + 1) c0 = false := by
        cases hx : acc_path d (g + 1) c0 with
        | false => rfl
        | true =>
          obtain ⟨a, ha⟩ := (step_generation_abort_iff d c0 g cs hinv).2 hx
          rw [hsg] at ha
          exact Except.noConfusion ha
      have hgl : g + 1 < L := by
        by_contra hnl
        have heq : g + 1 = L := by omega
        rw [heq, hL] at hnap
        exact Bool.noConfusion hnap
      have hinv' := step_generation_inv d c0 g cs l hinv hsg
      have hlne : ¬ l.length = 0 := by
        intro hz
        have hnil : l = [] := List.length_eq_zero.1 hz
        subst hnil
        have hempty : ∀ x, ¬ ReachN d c0 (g + 1) x := by
          intro x hx
          exact (List.not_mem_nil x) ((hinv' x).2 hx)
        obtain ⟨b, hb, -⟩ := (acc_path_iff_reach d (L - 1) c0).1
          (by rw [show L - 1 + 1 = L by omega]; exact hL)
        have hnb : ¬ ReachN d c0 (L - 1) b := by
          rw [show L - 1 = (g + 1) + (L - 1 - (g + 1)) by omega]
          exact ReachN_empty_mono d c0 (g + 1) hempty _ b
        exact hnb hb
      rw [nondet_run_loop_succ_ok d cs g fuel l hsg, if_neg hlne]
      exact nondet_run_loop_accept d c0 L hL hmin fuel (g + 1) l hgl (by omega) hinv'

/-- BFS soundness: any outcome returned by the nondeterministic loop is
a result with no tape; if accepted, the minimal accepting choice
sequence has length `num_steps + 1`; if rejected, no accepting choice
sequence of any length exists. -/
lemma nondet_run_loop_sound (d : NondeterministicTuringMachineDescription)
    (c0 : TuringMachineConfiguration) : ∀ (fuel g : Nat)
    (cs : List TuringMachineConfiguration) (o : TMOutcome),
    (∀ x, x ∈ cs ↔ ReachN d c0 g x) →
    (∀ l, l ≤ g → acc_path d l c0 = false) →
    NondeterministicTuringMachine.run_loop d cs g fuel = some o →
    ∃ k b, o = TMOutcome.result (TuringMachineResult.init k b none) ∧ g ≤ k ∧
      (b = true → acc_path d (k + 1) c0 = true ∧
        ∀ l, l ≤ k → acc_path d l c0 = false) ∧
      (b = false → ∀ L, acc_path d L c0 = false)
  | 0, g, cs, o, _, _, h => by exact Option.noConfusion h
  | fuel + 1, g, cs, o, hinv, hpre, h => by
    cases hsg : step_generation d cs with
    | error a =>
      rw [nondet_run_loop_succ_error d cs g fuel a hsg] at h
      simp only [Option.some.injEq] at h
      refine ⟨g, true, h.symm, Nat.le_refl g, fun _ => ⟨?_, hpre⟩,
        fun hb => Bool.noConfusion hb⟩
      exact (step_generation_abort_iff d c0 g cs hinv).1 ⟨a, hsg⟩
    | ok l =>
      rw [nondet_run_loop_succ_ok d cs g fuel l hsg] at h
      have hnap : acc_path d (g + 1) c0 = false := by
        cases hx : acc_path d (g + 1) c0 with
        | false => rfl
        | true =>
          obtain ⟨a, ha⟩ := (step_generation_abort_iff d c0 g cs hinv).2 hx
          rw [hsg] at ha
          exact Except.noConfusion ha
      have hinv' := step_generation_inv d c0 g cs l hinv hsg
      by_cases hlen : l.length = 0
      · rw [if_pos hlen] at h
        simp only [Option.some.injEq] at h
        have hnil : l = [] := List.length_eq_zero.1 hlen
        subst hnil
        have hempty : ∀ x, ¬ ReachN d c0 (g + 1) x := by
          intro x hx
          exact (List.not_mem_nil x) ((hinv' x).2 hx)
        refine ⟨g, false, h.symm, Nat.le_refl g, fun hb => Bool.noConfusion hb,
          fun _ => ?_⟩
        intro L
        rcases Nat.lt_or_ge L (g + 1) with hlt | hge
        · exact hpre L (by omega)
        · rcases Nat.eq_or_lt_of_le hge with heq | hlt2
          · rw [← heq]
            exact hnap
          · cases L with
            | zero => rfl
            | succ M =>
              cases hx : acc_path d (M + 1) c0 with
              | false => rfl
              | true =>
                obtain ⟨b, hb, -⟩ := (acc_path_iff_reach d M c0).1 hx
                have hnb : ¬ ReachN d c0 M b := by
                  rw [show M = (g + 1) + (M - (g + 1)) by omega]
                  exact ReachN_empty_mono d c0 (g + 1) hempty _ b
                exact absurd hb hnb
      · rw [if_neg hlen] at h
        have hpre' : ∀ l', l' ≤ g + 1 → acc_path d l' c0 = false := by
          intro l' hl'
          rcases Nat.eq_or_lt_of_le hl' with heq | hlt
          · rw [heq]
            exact hnap
          · exact hpre l' (by omega)
        obtain ⟨k, b, ho, hk, h1, h2⟩ :=
          nondet_run_loop_sound d c0 fuel (g + 1) l o hinv' hpre' h
        exact ⟨k, b, ho, by omega, h1, h2⟩

/-- Counterexample to C2 as stated: on `threeStepNTM` (shortest
accepting path of length 3, with longer and rejecting branches) the
code reports `num_steps = 2`, not 3: the generation counter is
incremented only after the acceptance check. -/
theorem C2_counterexample :
    NondeterministicTuringMachine.process_input threeStepNTM ["_"] 10 false =
      some (TMOutcome.result ⟨2, true, none⟩) ∧
    NondeterministicTuringMachine.process_input threeStepNTM ["_"] 10 false ≠
      some (TMOutcome.result ⟨3, true, none⟩) := by
  decide

/-- C2 (amended): `process_input` of the nondeterministic engine returns
`accepted = True` iff some finite sequence of nondeterministic choices
reaches the accepting state, and when the shortest such accepting
sequence has length `L` the returned `num_steps` equals `L - 1` — one
LESS than the path length (for a machine whose shortest accepting path
has length 3, `num_steps = 2` regardless of how many longer or rejecting
branches exist); a rejected result means no accepting choice sequence of
any length exists. -/
theorem C2_nondet_process_input_correct (d : NondeterministicTuringMachineDescription)
    (input : List String) (t0 : List Nat) (fuel : Nat)
    (henc : encode_input d.alphabet (if input.length = 0 then ["_"] else input) =
      some t0) :
    (∀ L, L ≤ fuel → acc_path d L ⟨0, t0, 0⟩ = true →
      (∀ l, l < L → acc_path d l ⟨0, t0, 0⟩ = false) →
      NondeterministicTuringMachine.process_input d input fuel false =
        some (TMOutcome.result (TuringMachineResult.init (L - 1) true none))) ∧
    (∀ o, NondeterministicTuringMachine.process_input d input fuel false = some o →
      ∃ k b, o = TMOutcome.result (TuringMachineResult.init k b none) ∧
        (b = true → acc_path d (k + 1) ⟨0, t0, 0⟩ = true ∧
          ∀ l, l ≤ k → acc_path d l ⟨0, t0, 0⟩ = false) ∧
        (b = false → ∀ L, acc_path d L ⟨0, t0, 0⟩ = false)) := by
  have hunf : NondeterministicTuringMachine.process_input d input fuel false =
      NondeterministicTuringMachine.run_loop d [⟨0, t0, 0⟩] 0 fuel := by
    simp only [NondeterministicTuringMachine.process_input, henc]
  have hinv0 : ∀ x, x ∈ [(⟨0, t0, 0⟩ : TuringMachineConfiguration)] ↔
      ReachN d ⟨0, t0, 0⟩ 0 x := by
    intro x
    simp [ReachN]
  have hpre0 : ∀ l, l ≤ 0 → acc_path d l ⟨0, t0, 0⟩ = false := by
    intro l hl
    have : l = 0 := by omega
    rw [this]
    rfl
  constructor
  · intro L hLf hL hmin
    have hL0 : 0 < L := by
      cases hzero : L with
      | zero =>
        rw [hzero] at hL
        exact absurd hL (by simp [acc_path])
      | succ M => omega
    rw [hunf]
    exact nondet_run_loop_accept d ⟨0, t0, 0⟩ L hL hmin fuel 0 [⟨0, t0, 0⟩]
      hL0 (by omega) hinv0
  · intro o ho
    rw [hunf] at ho
    obtain ⟨k, b, h1, _, h2, h3⟩ :=
      nondet_run_loop_sound d ⟨0, t0, 0⟩ fuel 0 [⟨0, t0, 0⟩] o hinv0 hpre0 ho
    exact ⟨k, b, h1, h2, h3⟩

/-- Witness for C2 (amended) on `threeStepNTM`: shortest accepting path
length 3, reported step count `3 - 1 = 2`. -/
theorem C2_nondet_process_input_correct_witness :
    NondeterministicTuringMachine.process_input threeStepNTM ["_"] 10 false =
      some (TMOutcome.result (TuringMachineResult.init (3 - 1) true none)) :=
  (C2_nondet_process_input_correct threeStepNTM ["_"] [0] 10 (by decide)).1 3
    (by decide) (by decide) (by decide)

/-- Reading back a freshly written array. -/
lemma readTape_writeTape_self (σ : TapeStore) (r : Nat) (a : List Nat)
    (h : r < σ.length) : readTape (writeTape σ r a) r = a := by
  simp [readTape, writeTape, List.getD_eq_getElem?_getD, List.getElem?_set_eq_of_lt a h]

/-- Writing one array leaves every other array unchanged. -/
lemma readTape_writeTape_ne (σ : TapeStore) (r r' : Nat) (a : List Nat)
    (h : r ≠ r') : readTape (writeTape σ r a) r' = readTape σ r' := by
  simp [readTape, writeTape, List.getD_eq_getElem?_getD, List.getElem?_set_ne h]

/-- Writing never changes the number of allocated arrays. -/
lemma writeTape_length (σ : TapeStore) (r : Nat) (a : List Nat) :
    (writeTape σ r a).length = σ.length := by
  simp [writeTape]

/-- Allocation leaves existing arrays unchanged. -/
lemma readTape_append_lt (σ τ : TapeStore) (r : Nat)
    (h : r < σ.length) : readTape (σ ++ τ) r = readTape σ r := by
  simp [readTape, List.getD_eq_getElem?_getD, List.getElem?_append, h]

/-- Reading a just-allocated array. -/
lemma readTape_append_self (σ : TapeStore) (a : List Nat) :
    readTape (σ ++ [a]) σ.length = a := by
  simp [readTape, List.getD_eq_getElem?_getD, List.getElem?_concat_length]

/-- `duplicate_configuration` allocates one fresh array holding a copy of
the parent's tape; the copy denotes the same configuration value and
existing arrays are untouched. -/
lemma duplicate_configuration_spec (σ : TapeStore) (c : HeapConfiguration) :
    (duplicate_configuration σ c).1.length = σ.length + 1 ∧
    (duplicate_configuration σ c).2.tapeRef = σ.length ∧
    toConfiguration (duplicate_configuration σ c).1 (duplicate_configuration σ c).2 =
      toConfiguration σ c ∧
    (∀ r, r < σ.length →
      readTape (duplicate_configuration σ c).1 r = readTape σ r) := by
  refine ⟨by simp [duplicate_configuration], rfl, ?_, ?_⟩
  · simp only [duplicate_configuration, toConfiguration]
    rw [readTape_append_self]
  · intro r hr
    exact readTape_append_lt σ _ r hr

/-- The store-level triple application mutates exactly the array behind
the configuration's reference, preserves the store size, and denotes
exactly the value-level `applyTriple`. -/
lemma applyTripleHeap_spec (σ : TapeStore) (c : HeapConfiguration)
    (t : Nat × Nat × Bool) (h : c.tapeRef < σ.length) :
    (applyTripleHeap σ c t).1.length = σ.length ∧
    (applyTripleHeap σ c t).2.tapeRef = c.tapeRef ∧
    toConfiguration (applyTripleHeap σ c t).1 (applyTripleHeap σ c t).2 =
      applyTriple (toConfiguration σ c) t ∧
    (∀ r, r ≠ c.tapeRef → readTape (applyTripleHeap σ c t).1 r = readTape σ r) := by
  obtain ⟨s, o, mr⟩ := t
  have hread1 : readTape (writeTape σ c.tapeRef
      ((readTape σ c.tapeRef).set c.position (o % 256))) c.tapeRef =
      (readTape σ c.tapeRef).set c.position (o % 256) :=
    readTape_writeTape_self σ c.tapeRef _ h
  have hlen1 : (writeTape σ c.tapeRef
      ((readTape σ c.tapeRef).set c.position (o % 256))).length = σ.length :=
    writeTape_length σ c.tapeRef _
  cases mr with
  | false =>
    simp only [applyTripleHeap, applyTriple, toConfiguration, Bool.false_eq_true,
      if_false]
    by_cases hpos : 0 < c.position
    · simp only [if_pos hpos]
      exact ⟨hlen1, by trivial, by rw [hread1], fun r hr =>
        readTape_writeTape_ne σ c.tapeRef r _ (fun he => hr he.symm)⟩
    · simp only [if_neg hpos]
      exact ⟨hlen1, by trivial, by rw [hread1], fun r hr =>
        readTape_writeTape_ne σ c.tapeRef r _ (fun he => hr he.symm)⟩
  | true =>
    by_cases hend : c.position + 1 = ((readTape σ c.tapeRef).set c.position (o % 256)).length
    · have hend' : c.position + 1 = (readTape (writeTape σ c.tapeRef
          ((readTape σ c.tapeRef).set c.position (o % 256))) c.tapeRef).length := by
        rw [hread1]
        exact hend
      simp only [applyTripleHeap, applyTriple, toConfiguration, if_true, if_pos hend,
        if_pos hend']
      have hlt1 : c.tapeRef < (writeTape σ c.tapeRef
          ((readTape σ c.tapeRef).set c.position (o % 256))).length := by
        rw [hlen1]
        exact h
      refine ⟨?_, by trivial, ?_, ?_⟩
      · rw [writeTape_length, hlen1]
      · rw [readTape_writeTape_self _ _ _ hlt1, hread1]
      · intro r hr
        rw [readTape_writeTape_ne _ c.tapeRef r _ (fun he => hr he.symm),
          readTape_writeTape_ne σ c.tapeRef r _ (fun he => hr he.symm)]
    · have hend' : ¬ c.position + 1 = (readTape (writeTape σ c.tapeRef
          ((readTape σ c.tapeRef).set c.position (o % 256))) c.tapeRef).length := by
        rw [hread1]
        exact hend
      simp only [applyTripleHeap, applyTriple, toConfiguration, if_true, if_neg hend,
        if_neg hend']
      exact ⟨hlen1, by trivial, by rw [hread1], fun r hr =>
        readTape_writeTape_ne σ c.tapeRef r _ (fun he => hr he.symm)⟩

/-- Unfolding the store-level fork loop at the last triple: the parent's
own storage is reused. -/
lemma step_triples_heap_last (d : NondeterministicTuringMachineDescription)
    (σ : TapeStore) (parent : HeapConfiguration) (t : Nat × Nat × Bool) :
    step_triples_heap d σ parent [t] =
      (if (applyTripleHeap σ parent t).2.state = d.accepting then
        ((applyTripleHeap σ parent t).1, Except.error (applyTripleHeap σ parent t).2)
      else
        ((applyTripleHeap σ parent t).1,
          Except.ok (if (applyTripleHeap σ parent t).2.state = d.rejecting then []
                     else [(applyTripleHeap σ parent t).2]))) := by
  by_cases hacc : (applyTripleHeap σ parent t).2.state = d.accepting
  · rw [if_pos hacc]
    simp [step_triples_heap, hacc]
  · rw [if_neg hacc]
    simp [step_triples_heap, hacc]

/-- Unfolding the store-level fork loop at a non-last triple: the parent
is first deep-copied. -/
lemma step_triples_heap_cons (d : NondeterministicTuringMachineDescription)
    (σ : TapeStore) (parent : HeapConfiguration) (t t2 : Nat × Nat × Bool)
    (ts : List (Nat × Nat × Bool)) :
    step_triples_heap d σ parent (t :: t2 :: ts) =
      (if (applyTripleHeap (duplicate_configuration σ parent).1
            (duplicate_configuration σ parent).2 t).2.state = d.accepting then
        ((applyTripleHeap (duplicate_configuration σ parent).1
            (duplicate_configuration σ parent).2 t).1,
          Except.error (applyTripleHeap (duplicate_configuration σ parent).1
            (duplicate_configuration σ parent).2 t).2)
      else
        match step_triples_heap d (applyTripleHeap (duplicate_configuration σ parent).1
            (duplicate_configuration σ parent).2 t).1 parent (t2 :: ts) with
        | (σ', Except.error a) => (σ', Except.error a)
        | (σ', Except.ok l) =>
          (σ', Except.ok (if (applyTripleHeap (duplicate_configuration σ parent).1
              (duplicate_configuration σ parent).2 t).2.state = d.rejecting then l
            else (applyTripleHeap (duplicate_configuration σ parent).1
              (duplicate_configuration σ parent).2 t).2 :: l))) := by
  by_cases hacc : (applyTripleHeap (duplicate_configuration σ parent).1
      (duplicate_configuration σ parent).2 t).2.state = d.accepting
  · rw [if_pos hacc]
    simp only [step_triples_heap, List.isEmpty_cons, if_neg (Bool.false_ne_true),
      if_pos hacc]
  · rw [if_neg hacc]
    simp only [step_triples_heap, List.isEmpty_cons, if_neg (Bool.false_ne_true),
      if_neg hacc]

/-- Store-level fork loop, non-last triple, accepting successor. -/
lemma step_triples_heap_cons_acc (d : NondeterministicTuringMachineDescription)
    (σ : TapeStore) (p : HeapConfiguration) (t t2 : Nat × Nat × Bool)
    (ts : List (Nat × Nat × Bool))
    (hacc : (applyTripleHeap (duplicate_configuration σ p).1
      (duplicate_configuration σ p).2 t).2.state = d.accepting) :
    step_triples_heap d σ p (t :: t2 :: ts) =
      ((applyTripleHeap (duplicate_configuration σ p).1
          (duplicate_configuration σ p).2 t).1,
        Except.error (applyTripleHeap (duplicate_configuration σ p).1
          (duplicate_configuration σ p).2 t).2) := by
  rw [step_triples_heap_cons, if_pos hacc]

/-- Store-level fork loop, non-last triple, recursion aborts. -/
lemma step_triples_heap_cons_error (d : NondeterministicTuringMachineDescription)
    (σ : TapeStore) (p : HeapConfiguration) (t t2 : Nat × Nat × Bool)
    (ts : List (Nat × Nat × Bool)) (σ' : TapeStore) (a : HeapConfiguration)
    (hacc : ¬ (applyTripleHeap (duplicate_configuration σ p).1
      (duplicate_configuration σ p).2 t).2.state = d.accepting)
    (hrec : step_triples_heap d (applyTripleHeap (duplicate_configuration σ p).1
      (duplicate_configuration σ p).2 t).1 p (t2 :: ts) = (σ', Except.error a)) :
    step_triples_heap d σ p (t :: t2 :: ts) = (σ', Except.error a) := by
  rw [step_triples_heap_cons, if_neg hacc, hrec]

/-- Store-level fork loop, non-last triple, recursion succeeds. -/
lemma step_triples_heap_cons_ok (d : NondeterministicTuringMachineDescription)
    (σ : TapeStore) (p : HeapConfiguration) (t t2 : Nat × Nat × Bool)
    (ts : List (Nat × Nat × Bool)) (σ' : TapeStore)
    (l : List HeapConfiguration)
    (hacc : ¬ (applyTripleHeap (duplicate_configuration σ p).1
      (duplicate_configuration σ p).2 t).2.state = d.accepting)
    (hrec : step_triples_heap d (applyTripleHeap (duplicate_configuration σ p).1
      (duplicate_configuration σ p).2 t).1 p (t2 :: ts) = (σ', Except.ok l)) :
    step_triples_heap d σ p (t :: t2 :: ts) =
      (σ', Except.ok (if (applyTripleHeap (duplicate_configuration σ p).1
          (duplicate_configuration σ p).2 t).2.state = d.rejecting then l
        else (applyTripleHeap (duplicate_configuration σ p).1
          (duplicate_configuration σ p).2 t).2 :: l)) := by
  rw [step_triples_heap_cons, if_neg hacc, hrec]


/-- Value-level fork traversal over a single (last) triple. -/
lemma stepTriples_singleton (d : NondeterministicTuringMachineDescription)
    (c : TuringMachineConfiguration) (t : Nat × Nat × Bool) :
    stepTriples d c [t] =
      (if (applyTriple c t).state = d.accepting then Except.error (applyTriple c t)
       else Except.ok (if (applyTriple c t).state = d.rejecting then []
                       else [applyTriple c t])) := by
  by_cases hacc : (applyTriple c t).state = d.accepting
  · rw [if_pos hacc, stepTriples, if_pos hacc]
  · rw [if_neg hacc, stepTriples, if_neg hacc]
    rfl

/-- Value-level fork traversal, head not accepting, tail aborts. -/
lemma stepTriples_cons_error (d : NondeterministicTuringMachineDescription)
    (c : TuringMachineConfiguration) (t : Nat × Nat × Bool)
    (ts : List (Nat × Nat × Bool)) (a : TuringMachineConfiguration)
    (hacc : ¬ (applyTriple c t).state = d.accepting)
    (h : stepTriples d c ts = Except.error a) :
    stepTriples d c (t :: ts) = Except.error a := by
  rw [stepTriples, if_neg hacc, h]

/-- Value-level fork traversal, head not accepting, tail succeeds. -/
lemma stepTriples_cons_ok (d : NondeterministicTuringMachineDescription)
    (c : TuringMachineConfiguration) (t : Nat × Nat × Bool)
    (ts : List (Nat × Nat × Bool)) (l : List TuringMachineConfiguration)
    (hacc : ¬ (applyTriple c t).state = d.accepting)
    (h : stepTriples d c ts = Except.ok l) :
    stepTriples d c (t :: ts) =
      Except.ok (if (applyTriple c t).state = d.rejecting then l
                 else applyTriple c t :: l) := by
  rw [stepTriples, if_neg hacc, h]

/-- Value-level fork traversal, accepting head. -/
lemma stepTriples_cons_acc (d : NondeterministicTuringMachineDescription)
    (c : TuringMachineConfiguration) (t : Nat × Nat × Bool)
    (ts : List (Nat × Nat × Bool))
    (hacc : (applyTriple c t).state = d.accepting) :
    stepTriples d c (t :: ts) = Except.error (applyTriple c t) := by
  rw [stepTriples, if_pos hacc]

/-- Correctness of the store-level fork loop: it only allocates new
arrays or mutates the parent's own array, never another live array, and
its outcome denotes exactly the value-level `stepTriples` applied to the
parent's value — every forked successor's tape is computed from the
parent's original tape, so a write performed for one successor is never
observable in a sibling.  The yielded successors hold pairwise distinct
array references, each either a fresh allocation or (at most once, for
the last triple) the parent's own storage. -/
lemma step_triples_heap_spec (d : NondeterministicTuringMachineDescription) :
    ∀ (ts : List (Nat × Nat × Bool)) (σ : TapeStore) (p : HeapConfiguration),
    p.tapeRef < σ.length →
    σ.length ≤ (step_triples_heap d σ p ts).1.length ∧
    (∀ r, r < σ.length → r ≠ p.tapeRef →
      readTape (step_triples_heap d σ p ts).1 r = readTape σ r) ∧
    (∀ a, (step_triples_heap d σ p ts).2 = Except.error a →
      stepTriples d (toConfiguration σ p) ts =
        Except.error (toConfiguration (step_triples_heap d σ p ts).1 a)) ∧
    (∀ l, (step_triples_heap d σ p ts).2 = Except.ok l →
      stepTriples d (toConfiguration σ p) ts =
        Except.ok (l.map (toConfiguration (step_triples_heap d σ p ts).1)) ∧
      (l.map (fun hc => hc.tapeRef)).Nodup ∧
      (∀ hc ∈ l, hc.tapeRef = p.tapeRef ∨ σ.length ≤ hc.tapeRef))
  | [], σ, p, hp => by
    refine ⟨Nat.le_refl _, fun r _ _ => rfl, ?_, ?_⟩
    · intro a ha
      exact Except.noConfusion ha
    · intro l hl
      simp only [step_triples_heap, Except.ok.injEq] at hl
      subst hl
      exact ⟨rfl, List.nodup_nil, fun hc hmem => absurd hmem (List.not_mem_nil hc)⟩
  | [t], σ, p, hp => by
    obtain ⟨hlen, href, hcfg, hframe⟩ := applyTripleHeap_spec σ p t hp
    have hstate : (applyTriple (toConfiguration σ p) t).state =
        (applyTripleHeap σ p t).2.state := by
      rw [← hcfg]
      rfl
    rw [step_triples_heap_last]
    by_cases hacc : (applyTripleHeap σ p t).2.state = d.accepting
    · have hacc' : (applyTriple (toConfiguration σ p) t).state = d.accepting := by
        rw [hstate]
        exact hacc
      rw [if_pos hacc]
      refine ⟨Nat.le_of_eq hlen.symm, fun r _ hr => hframe r hr, ?_, ?_⟩
      · intro a ha
        simp only [Except.error.injEq] at ha
        subst ha
        rw [stepTriples_cons_acc d _ t [] hacc', hcfg]
      · intro l hl
        exact Except.noConfusion hl
    · have hacc' : ¬ (applyTriple (toConfiguration σ p) t).state = d.accepting := by
        rw [hstate]
        exact hacc
      rw [if_neg hacc]
      refine ⟨Nat.le_of_eq hlen.symm, fun r _ hr => hframe r hr, ?_, ?_⟩
      · intro a ha
        exact Except.noConfusion ha
      · intro l hl
        simp only [Except.ok.injEq] at hl
        subst hl
        rw [stepTriples_singleton, if_neg hacc']
        by_cases hrej : (applyTripleHeap σ p t).2.state = d.rejecting
        · have hrej' : (applyTriple (toConfiguration σ p) t).state = d.rejecting := by
            rw [hstate]
            exact hrej
          rw [if_pos hrej, if_pos hrej']
          exact ⟨rfl, List.nodup_nil, fun hc hmem => absurd hmem (List.not_mem_nil hc)⟩
        · have hrej' : ¬ (applyTriple (toConfiguration σ p) t).state = d.rejecting := by
            rw [hstate]
            exact hrej
          rw [if_neg hrej, if_neg hrej']
          refine ⟨?_, by simp, ?_⟩
          · simp only [List.map_cons, List.map_nil, hcfg]
          · intro hc hmem
            rcases List.mem_singleton.1 hmem with rfl
            exact Or.inl href
  | t :: t2 :: ts, σ, p, hp => by
    obtain ⟨hdlen, hdref, hdcfg, hdframe⟩ := duplicate_configuration_spec σ p
    have hdlt : (duplicate_configuration σ p).2.tapeRef <
        (duplicate_configuration σ p).1.length := by
      rw [hdref, hdlen]
      omega
    obtain ⟨hqlen, hqref, hqcfg, hqframe⟩ :=
      applyTripleHeap_spec (duplicate_configuration σ p).1
        (duplicate_configuration σ p).2 t hdlt
    have hQlen : (applyTripleHeap (duplicate_configuration σ p).1
        (duplicate_configuration σ p).2 t).1.length = σ.length + 1 := by
      rw [hqlen, hdlen]
    have hQref : (applyTripleHeap (duplicate_configuration σ p).1
        (duplicate_configuration σ p).2 t).2.tapeRef = σ.length := by
      rw [hqref, hdref]
    have hcomb : toConfiguration (applyTripleHeap (duplicate_configuration σ p).1
        (duplicate_configuration σ p).2 t).1
        (applyTripleHeap (duplicate_configuration σ p).1
          (duplicate_configuration σ p).2 t).2 =
        applyTriple (toConfiguration σ p) t := by
      rw [hqcfg, hdcfg]
    have hstate : (applyTriple (toConfiguration σ p) t).state =
        (applyTripleHeap (duplicate_configuration σ p).1
          (duplicate_configuration σ p).2 t).2.state := by
      rw [← hcomb]
      rfl
    have hQfr : ∀ r, r < σ.length →
        readTape (applyTripleHeap (duplicate_configuration σ p).1
          (duplicate_configuration σ p).2 t).1 r = readTape σ r := by
      intro r hr
      rw [hqframe r (by rw [hdref]; omega), hdframe r hr]
    have htocfg : toConfiguration (applyTripleHeap (duplicate_configuration σ p).1
        (duplicate_configuration σ p).2 t).1 p = toConfiguration σ p := by
      simp only [toConfiguration, hQfr p.tapeRef hp]
    have hplt : p.tapeRef < (applyTripleHeap (duplicate_configuration σ p).1
        (duplicate_configuration σ p).2 t).1.length := by
      rw [hQlen]
      omega
    obtain ⟨hrlen, hrframe, herr, hok⟩ :=
      step_triples_heap_spec d (t2 :: ts)
        (applyTripleHeap (duplicate_configuration σ p).1
          (duplicate_configuration σ p).2 t).1 p hplt
    by_cases hacc : (applyTripleHeap (duplicate_configuration σ p).1
        (duplicate_configuration σ p).2 t).2.state = d.accepting
    · have hacc' : (applyTriple (toConfiguration σ p) t).state = d.accepting := by
        rw [hstate]
        exact hacc
      rw [step_triples_heap_cons_acc d σ p t t2 ts hacc]
      refine ⟨by rw [hQlen]; omega, fun r hr _ => hQfr r hr, ?_, ?_⟩
      · intro a ha
        simp only [Except.error.injEq] at ha
        subst ha
        rw [stepTriples_cons_acc d _ t (t2 :: ts) hacc', hcomb]
      · intro l hl
        exact Except.noConfusion hl
    · have hacc' : ¬ (applyTriple (toConfiguration σ p) t).state = d.accepting := by
        rw [hstate]
        exact hacc
      cases hrec : step_triples_heap d (applyTripleHeap (duplicate_configuration σ p).1
          (duplicate_configuration σ p).2 t).1 p (t2 :: ts) with
      | mk σ' res =>
        rw [hrec] at hrlen hrframe herr hok
        cases res with
        | error a =>
          rw [step_triples_heap_cons_error d σ p t t2 ts σ' a hacc hrec]
          refine ⟨?_, ?_, ?_, ?_⟩
          · rw [hQlen] at hrlen
            simp only [] at hrlen ⊢
            omega
          · intro r hr hrp
            have h1 := hrframe r (by rw [hQlen]; omega) hrp
            simp only [] at h1
            rw [h1, hQfr r hr]
          · intro a' ha'
            simp only [Except.error.injEq] at ha'
            subst ha'
            have h2 := herr a rfl
            rw [htocfg] at h2
            exact stepTriples_cons_error d _ t (t2 :: ts) _ hacc' h2
          · intro l hl
            exact Except.noConfusion hl
        | ok l =>
          rw [step_triples_heap_cons_ok d σ p t t2 ts σ' l hacc hrec]
          obtain ⟨hpure, hnodup, hrefs⟩ := hok l rfl
          rw [htocfg] at hpure
          have hQ2 : readTape σ' (applyTripleHeap (duplicate_configuration σ p).1
              (duplicate_configuration σ p).2 t).2.tapeRef =
              readTape (applyTripleHeap (duplicate_configuration σ p).1
                (duplicate_configuration σ p).2 t).1
                (applyTripleHeap (duplicate_configuration σ p).1
                  (duplicate_configuration σ p).2 t).2.tapeRef := by
            have := hrframe (applyTripleHeap (duplicate_configuration σ p).1
                (duplicate_configuration σ p).2 t).2.tapeRef
              (by rw [hQref, hQlen]; omega) (by rw [hQref]; omega)
            simpa using this
          have htoQ2 : toConfiguration σ'
              (applyTripleHeap (duplicate_configuration σ p).1
                (duplicate_configuration σ p).2 t).2 =
              applyTriple (toConfiguration σ p) t := by
            rw [← hcomb]
            simp only [toConfiguration, hQ2]
          refine ⟨?_, ?_, ?_, ?_⟩
          · rw [hQlen] at hrlen
            simp only [] at hrlen ⊢
            omega
          · intro r hr hrp
            have h1 := hrframe r (by rw [hQlen]; omega) hrp
            simp only [] at h1
            rw [h1, hQfr r hr]
          · intro a' ha'
            exact Except.noConfusion ha'
          · intro l' hl'
            simp only [Except.ok.injEq] at hl'
            subst hl'
            have hpure' := stepTriples_cons_ok d _ t (t2 :: ts) _ hacc' hpure
            by_cases hrej : (applyTripleHeap (duplicate_configuration σ p).1
                (duplicate_configuration σ p).2 t).2.state = d.rejecting
            · have hrej' : (applyTriple (toConfiguration σ p) t).state = d.rejecting := by
                rw [hstate]
                exact hrej
              rw [if_pos hrej]
              rw [hpure', if_pos hrej']
              refine ⟨rfl, hnodup, ?_⟩
              intro hc hmem
              rcases hrefs hc hmem with h1 | h1
              · exact Or.inl h1
              · right
                rw [hQlen] at h1
                omega
            · have hrej' : ¬ (applyTriple (toConfiguration σ p) t).state = d.rejecting := by
                rw [hstate]
                exact hrej
              rw [if_neg hrej]
              rw [hpure', if_neg hrej']
              refine ⟨?_, ?_, ?_⟩
              · simp only [List.map_cons, htoQ2]
              · simp only [List.map_cons]
                rw [List.nodup_cons]
                refine ⟨?_, hnodup⟩
                intro hmem
                obtain ⟨hc, hcm, hce⟩ := List.mem_map.1 hmem
                rcases hrefs hc hcm with h1 | h1
                · rw [h1, hQref] at hce
                  omega
                · rw [hQref] at hce
                  rw [hQlen] at h1
                  omega
              · intro hc hmem
                rcases List.mem_cons.1 hmem with rfl | hcm
                · right
                  rw [hQref]
                · rcases hrefs hc hcm with h1 | h1
                  · exact Or.inl h1
                  · right
                    rw [hQlen] at h1
                    omega

/-- Store-level model of `NondeterministicTuringMachine.perform_step`:
the parent's state/symbol lookup followed by the fork loop over the
resulting triples, with the source's copy-on-fork discipline. -/
def NondeterministicTuringMachine.perform_step_heap
    (d : NondeterministicTuringMachineDescription) (σ : TapeStore)
    (parent : HeapConfiguration) :
    TapeStore × Except HeapConfiguration (List HeapConfiguration) :=
  step_triples_heap d σ parent (triplesAt d (toConfiguration σ parent))

/-- C3 (fork isolation): running the nondeterministic `perform_step`
against an explicit store of arrays — each non-last successor writing to
a freshly allocated copy of the parent's array, the last mutating the
parent's array in place, in the source's order — produces exactly the
successors of the pure value semantics, in which each successor's tape
is the parent's original tape with only that successor's own output
symbol written at the parent's head position (`applyTriple`); hence a
write performed for one successor is never observable in a sibling.
The yielded successors hold pairwise distinct array references, each a
fresh allocation or (at most the last) the parent's reused storage. -/
theorem C3_fork_isolation (d : NondeterministicTuringMachineDescription)
    (σ : TapeStore) (p : HeapConfiguration) (hp : p.tapeRef < σ.length) :
    (∀ σ' a, NondeterministicTuringMachine.perform_step_heap d σ p =
        (σ', Except.error a) →
      NondeterministicTuringMachine.perform_step d (toConfiguration σ p) =
        Except.error (toConfiguration σ' a)) ∧
    (∀ σ' l, NondeterministicTuringMachine.perform_step_heap d σ p =
        (σ', Except.ok l) →
      NondeterministicTuringMachine.perform_step d (toConfiguration σ p) =
        Except.ok (l.map (toConfiguration σ')) ∧
      (l.map (fun hc => hc.tapeRef)).Nodup ∧
      (∀ hc ∈ l, hc.tapeRef = p.tapeRef ∨ σ.length ≤ hc.tapeRef)) ∧
    (∀ x, x ∈ nsuccs d (toConfiguration σ p) ↔
      ∃ t ∈ triplesAt d (toConfiguration σ p),
        x = applyTriple (toConfiguration σ p) t) := by
  obtain ⟨-, -, herr, hok⟩ :=
    step_triples_heap_spec d (triplesAt d (toConfiguration σ p)) σ p hp
  refine ⟨?_, ?_, ?_⟩
  · intro σ' a heq
    have h2 : (step_triples_heap d σ p (triplesAt d (toConfiguration σ p))).2 =
        Except.error a := by
      rw [show step_triples_heap d σ p (triplesAt d (toConfiguration σ p)) =
        (σ', Except.error a) from heq]
    have := herr a h2
    rw [show step_triples_heap d σ p (triplesAt d (toConfiguration σ p)) =
      (σ', Except.error a) from heq] at this
    exact this
  · intro σ' l heq
    have h2 : (step_triples_heap d σ p (triplesAt d (toConfiguration σ p))).2 =
        Except.ok l := by
      rw [show step_triples_heap d σ p (triplesAt d (toConfiguration σ p)) =
        (σ', Except.ok l) from heq]
    have := hok l h2
    rw [show step_triples_heap d σ p (triplesAt d (toConfiguration σ p)) =
      (σ', Except.ok l) from heq] at this
    exact this
  · intro x
    constructor
    · intro hx
      obtain ⟨t, ht, rfl⟩ := List.mem_map.1 hx
      exact ⟨t, ht, rfl⟩
    · rintro ⟨t, ht, rfl⟩
      exact List.mem_map.2 ⟨t, ht, rfl⟩

/-- Witness for C3: the branching initial step of `threeStepNTM` — three
triples fork into one rejected branch (dropped), one fresh copy, and the
parent's reused storage, matching the pure successors. -/
theorem C3_fork_isolation_witness :
    NondeterministicTuringMachine.perform_step threeStepNTM
        (toConfiguration [[0]] ⟨0, 0, 0⟩) =
      Except.ok ([HeapConfiguration.mk 1 2 1, HeapConfiguration.mk 0 0 0].map
        (toConfiguration [[0], [0, 0], [0, 0]])) ∧
    ([HeapConfiguration.mk 1 2 1, HeapConfiguration.mk 0 0 0].map
      (fun hc => hc.tapeRef)).Nodup ∧
    (∀ hc ∈ [HeapConfiguration.mk 1 2 1, HeapConfiguration.mk 0 0 0],
      hc.tapeRef = (HeapConfiguration.mk 0 0 0).tapeRef ∨
        ([[0]] : TapeStore).length ≤ hc.tapeRef) :=
  (C3_fork_isolation threeStepNTM [[0]] ⟨0, 0, 0⟩ (by decide)).2.1
    [[0], [0, 0], [0, 0]] [HeapConfiguration.mk 1 2 1, HeapConfiguration.mk 0 0 0] rfl
